import Mathlib

set_option maxHeartbeats 4000000
set_option maxRecDepth 8192

/-!
Verification of the TP-7 utility (tp7_util.py): a converter between a
12-channel interleaved WAV container and six stereo WAV files.

The embedding models the sample codec (read_24bit_audio / write_24bit_audio
and the 16/32-bit numpy conversions), the demultiplexer (export_multitrack)
and the multiplexer (import_to_multitrack) as pure Lean functions over
byte lists (Nat) and signed samples (Int).
-/

namespace Tp7

/-- numpy int16 view of an unsigned 16-bit value. -/
def toInt16 (u : Nat) : Int := if u < 32768 then (u : Int) else (u : Int) - 65536

/-- numpy int32 view of an unsigned 32-bit value (astype(np.int32) on a uint32). -/
def toInt32 (u : Nat) : Int := if u < 2147483648 then (u : Int) else (u : Int) - 4294967296

/-- The unsigned little-endian 32-bit value of a 3-byte group padded with a zero
top byte, as built by read_24bit_audio's padded.view of u4. -/
def u24 (b0 b1 b2 : Nat) : Nat := b0 + 256 * b1 + 65536 * b2

/-- read_24bit_audio, one sample: pad the three little-endian bytes with a zero
byte, view as unsigned 32-bit, OR with 0xFF000000 when bit 23 (mask 0x800000)
is set, and view the result as a signed 32-bit integer. -/
def read24 (b0 b1 b2 : Nat) : Int :=
  toInt32 (if u24 b0 b1 b2 &&& 0x800000 ≠ 0 then u24 b0 b1 b2 ||| 0xFF000000
           else u24 b0 b1 b2)

/-- The unsigned 32-bit representation of a signed sample after astype(np.int32)
(two's complement, wrapping modulo 2^32). -/
def uint32Of (v : Int) : Nat := (v % 4294967296).toNat

/-- write_24bit_audio, one sample: view the 32-bit integer as four little-endian
bytes and keep only the first (low) three. -/
def write24 (v : Int) : List Nat :=
  [uint32Of v % 256, uint32Of v / 256 % 256, uint32Of v / 65536 % 256]

/-- astype(np.int16).tobytes(), one sample: two little-endian bytes of the
value wrapped modulo 2^16. -/
def write16 (v : Int) : List Nat :=
  [(v % 65536).toNat % 256, (v % 65536).toNat / 256 % 256]

/-- astype(np.int32).tobytes(), one sample: four little-endian bytes. -/
def write32 (v : Int) : List Nat :=
  [uint32Of v % 256, uint32Of v / 256 % 256, uint32Of v / 65536 % 256,
   uint32Of v / 16777216 % 256]

/-- np.frombuffer with dtype int16: consecutive little-endian byte pairs. -/
def decode16 : List Nat → Option (List Int)
  | [] => some []
  | b0 :: b1 :: rest => (decode16 rest).map (fun s => toInt16 (b0 + 256 * b1) :: s)
  | [_] => none

/-- read_24bit_audio over a whole byte buffer: consecutive 3-byte groups. -/
def decode24 : List Nat → Option (List Int)
  | [] => some []
  | b0 :: b1 :: b2 :: rest => (decode24 rest).map (fun s => read24 b0 b1 b2 :: s)
  | [_] => none
  | [_, _] => none

/-- np.frombuffer with dtype int32: consecutive little-endian 4-byte groups. -/
def decode32 : List Nat → Option (List Int)
  | [] => some []
  | b0 :: b1 :: b2 :: b3 :: rest =>
    (decode32 rest).map (fun s => toInt32 (b0 + 256 * b1 + 65536 * b2 + 16777216 * b3) :: s)
  | [_] => none
  | [_, _] => none
  | [_, _, _] => none

/-- The error outcomes of the two operations (each is a distinct printed
error message followed by return False in the source; malformedData stands
for the numpy exceptions on buffers that do not fit the expected shape). -/
inductive TpError where
  | inputNotFound
  | unsupportedBitDepth
  | channelCountMismatch
  | sampleWidthMismatch
  | sampleRateMismatch
  | tooManyTracks
  | noValidInputs
  | malformedData
deriving DecidableEq

/-- The if sample_width == 2 / 3 / 4 / else dispatch used when reading frames. -/
def decodeSamples (sw : Nat) (bytes : List Nat) : Except TpError (List Int) :=
  if sw = 2 then
    match decode16 bytes with
    | some s => Except.ok s
    | none => Except.error TpError.malformedData
  else if sw = 3 then
    match decode24 bytes with
    | some s => Except.ok s
    | none => Except.error TpError.malformedData
  else if sw = 4 then
    match decode32 bytes with
    | some s => Except.ok s
    | none => Except.error TpError.malformedData
  else Except.error TpError.unsupportedBitDepth

/-- The corresponding write-side dispatch (astype(...).tobytes() or
write_24bit_audio over the flattened sample array). -/
def encodeSamples (sw : Nat) (s : List Int) : List Nat :=
  if sw = 2 then (s.map write16).flatten
  else if sw = 3 then (s.map write24).flatten
  else if sw = 4 then (s.map write32).flatten
  else []

/-- The signed range of a sample of the given byte width: the values the
corresponding decoder can produce. -/
def inRange (sw : Nat) (v : Int) : Prop := -(2 ^ (8 * sw - 1)) ≤ v ∧ v < 2 ^ (8 * sw - 1)

/-- A WAV file: header fields plus the raw data payload bytes. -/
structure Wav where
  nchannels : Nat
  sampwidth : Nat
  framerate : Nat
  bytes : List Nat
deriving DecidableEq

/-- The dummy value used for out-of-range list reads in statements. -/
def w0 : Wav := ⟨0, 0, 0, []⟩

/-- The frame count reported by the wave module: payload size divided by the
frame size (channel count times sample width). -/
def Wav.nframes (w : Wav) : Nat := w.bytes.length / (w.nchannels * w.sampwidth)

/-- readframes(n_frames): the first n_frames * nchannels * sampwidth bytes. -/
def Wav.readData (w : Wav) : List Nat :=
  w.bytes.take (w.nframes * w.nchannels * w.sampwidth)

/-- Well-formed payload: genuine bytes, and a whole number of frames. -/
def Wav.wf (w : Wav) : Prop :=
  (∀ b ∈ w.bytes, b < 256) ∧ (w.nchannels * w.sampwidth) ∣ w.bytes.length

/-- The in-memory signed sample array of a file (empty on a decode error). -/
def Wav.decoded (w : Wav) : List Int :=
  match decodeSamples w.sampwidth w.readData with
  | Except.ok s => s
  | Except.error _ => []

/-- The sample at a given frame and channel (frame-major interleaving). -/
def Wav.sample (w : Wav) (f c : Nat) : Int :=
  w.decoded.getD (f * w.nchannels + c) 0

/-- Fuel-driven worker for reshape: split a flat list into rows of width c. -/
def chunksF (c : Nat) : Nat → List Int → List (List Int)
  | _, [] => []
  | 0, _ :: _ => []
  | fuel + 1, x :: xs => (x :: xs).take c :: chunksF c fuel ((x :: xs).drop c)

/-- reshape(-1, c): split a flat sample list into rows of width c. -/
def chunks (c : Nat) (xs : List Int) : List (List Int) := chunksF c xs.length xs

/-- Matrix entry access with zero default. -/
def mget (m : List (List Int)) (f c : Nat) : Int := (m.getD f []).getD c 0

/-- One row of the numpy slice assignment row[2i:2i+2] = pr. -/
def setCols (row : List Int) (i : Nat) (pr : List Int) : List Int :=
  row.take (2 * i) ++ pr ++ row.drop (2 * i + 2)

/-- multitrack[:len(tr), 2i:2i+2] = tr: overwrite the channel pair 2i, 2i+1 of
the first len(tr) rows. -/
def setTrackRows (i : Nat) : List (List Int) → List (List Int) → List (List Int)
  | m, [] => m
  | [], _ => []
  | row :: m, pr :: tr => setCols row i pr :: setTrackRows i m tr

/-- np.zeros((max_frames, 12)) followed by the enumerate(all_tracks) copy loop. -/
def buildMultitrack (tracks : List (List (List Int))) (maxF : Nat) : List (List Int) :=
  (tracks.enum).foldl (fun m p => setTrackRows p.1 m p.2)
    (List.replicate maxF (List.replicate 12 0))

/-- One demultiplexed stereo track file: channel pair 2t, 2t+1 of the rows of
the 12-channel buffer, written with the input's sample width and rate. -/
def demuxTrack (w : Wav) (rows : List (List Int)) (t : Nat) : Wav :=
  ⟨2, w.sampwidth, w.framerate,
    encodeSamples w.sampwidth
      ((rows.map (fun r => [r.getD (2 * t) 0, r.getD (2 * t + 1) 0])).flatten)⟩

/-- The multitrack file written by the multiplexer: 12 channels at the
reference width and rate, data from the zero-padded combined buffer. -/
def muxOutput (refW refR : Nat) (tracks : List (List (List Int))) : Wav :=
  ⟨12, refW, refR,
    encodeSamples refW
      (buildMultitrack tracks (tracks.foldl (fun m t => max m t.length) 0)).flatten⟩

/-- The per-file loop of import_to_multitrack: check channel count, sample
width and frame rate against the reference, then read and reshape the data. -/
def loadTracks (refW refR : Nat) : List Wav → Except TpError (List (List (List Int)))
  | [] => Except.ok []
  | w :: rest =>
    if w.nchannels ≠ 2 then Except.error TpError.channelCountMismatch
    else if w.sampwidth ≠ refW then Except.error TpError.sampleWidthMismatch
    else if w.framerate ≠ refR then Except.error TpError.sampleRateMismatch
    else
      match decodeSamples refW w.readData with
      | Except.error e => Except.error e
      | Except.ok s =>
        match loadTracks refW refR rest with
        | Except.error e => Except.error e
        | Except.ok ts => Except.ok (chunks 2 s :: ts)

/-- import_to_multitrack: a none input stands for a nonexistent path (skipped
with a warning).  The output file is opened and written only after every
input has been validated, so an error result means no output was created. -/
def importModel (inputs : List (Option Wav)) : Except TpError Wav :=
  let valid := inputs.filterMap id
  if valid.length = 0 then Except.error TpError.noValidInputs
  else if 6 < valid.length then Except.error TpError.tooManyTracks
  else
    let ref := valid.headD w0
    if ref.nchannels ≠ 2 then Except.error TpError.channelCountMismatch
    else
      match loadTracks ref.sampwidth ref.framerate valid with
      | Except.error e => Except.error e
      | Except.ok tracks => Except.ok (muxOutput ref.sampwidth ref.framerate tracks)

/-- The observable outcome of export_multitrack: success flag, error kind,
whether the output directory was created, and the track files written. -/
structure ExportOut where
  ok : Bool
  err : Option TpError
  mkdirDone : Bool
  tracks : List Wav
deriving DecidableEq

/-- export_multitrack: a none input stands for a nonexistent input path.  The
output directory is created (mkdir) right after the existence check and
before the container is opened or validated. -/
def exportModel : Option Wav → ExportOut
  | none => ⟨false, some TpError.inputNotFound, false, []⟩
  | some w =>
    if w.nchannels ≠ 12 then ⟨false, some TpError.channelCountMismatch, true, []⟩
    else
      match decodeSamples w.sampwidth w.readData with
      | Except.error e => ⟨false, some e, true, []⟩
      | Except.ok samples =>
        ⟨true, none, true, (List.range 6).map (demuxTrack w (chunks 12 samples))⟩

/-! ### Arithmetic facts about the per-sample codecs -/

theorem lor_high {u : Nat} (h : u < 16777216) : u ||| 4278190080 = 4278190080 + u := by
  have hu : u < 2 ^ 24 := by omega
  apply Nat.eq_of_testBit_eq
  intro j
  rw [Nat.testBit_or]
  rw [show (4278190080 : Nat) = 255 <<< 24 from by rw [Nat.shiftLeft_eq]]
  rw [Nat.testBit_shiftLeft]
  rw [Nat.shiftLeft_eq, show (255 : Nat) * 2 ^ 24 = 2 ^ 24 * 255 from Nat.mul_comm _ _]
  rw [Nat.testBit_mul_pow_two_add 255 hu j]
  by_cases hj : j < 24
  · simp [hj, Nat.not_le_of_lt hj]
  · have hf : Nat.testBit u j = false :=
      Nat.testBit_lt_two_pow
        (lt_of_lt_of_le hu (Nat.pow_le_pow_right (by norm_num) (Nat.le_of_not_lt hj)))
    simp [hj, hf, Nat.le_of_not_lt hj]

theorem and_sign_bit {u : Nat} (h : u < 16777216) : u &&& 8388608 = 0 ↔ u < 8388608 := by
  have e : u &&& 8388608 = (Nat.testBit u 23).toNat * 8388608 := by
    rw [show (8388608 : Nat) = 2 ^ 23 from by norm_num, Nat.and_two_pow]
  rw [e, Nat.testBit_to_div_mod, show (2 : Nat) ^ 23 = 8388608 from by norm_num]
  by_cases hd : u / 8388608 % 2 = 1 <;> simp [hd] <;> omega

theorem read24_eq {b0 b1 b2 : Nat} (h0 : b0 < 256) (h1 : b1 < 256) (h2 : b2 < 256) :
    read24 b0 b1 b2 =
      (if u24 b0 b1 b2 < 8388608 then (u24 b0 b1 b2 : Int)
       else (u24 b0 b1 b2 : Int) - 16777216) := by
  have hu : u24 b0 b1 b2 < 16777216 := by unfold u24; omega
  unfold read24
  by_cases hs : u24 b0 b1 b2 &&& 0x800000 ≠ 0
  · have hge : ¬ u24 b0 b1 b2 < 8388608 := fun hlt => hs ((and_sign_bit hu).mpr hlt)
    rw [if_pos hs, lor_high hu, if_neg hge]
    unfold toInt32
    rw [if_neg (by omega)]
    omega
  · have hz : u24 b0 b1 b2 &&& 8388608 = 0 := Nat.eq_zero_of_not_pos
      (fun hp => hs (Nat.pos_iff_ne_zero.mp hp))
    have hlt : u24 b0 b1 b2 < 8388608 := (and_sign_bit hu).mp hz
    rw [if_neg hs, if_pos hlt]
    unfold toInt32
    rw [if_pos (by omega)]

theorem read24_range {b0 b1 b2 : Nat} (h0 : b0 < 256) (h1 : b1 < 256) (h2 : b2 < 256) :
    -8388608 ≤ read24 b0 b1 b2 ∧ read24 b0 b1 b2 < 8388608 := by
  rw [read24_eq h0 h1 h2]
  have hu : u24 b0 b1 b2 < 16777216 := by unfold u24; omega
  split <;> constructor <;> omega

theorem write24_read24 {b0 b1 b2 : Nat} (h0 : b0 < 256) (h1 : b1 < 256) (h2 : b2 < 256) :
    write24 (read24 b0 b1 b2) = [b0, b1, b2] := by
  rw [read24_eq h0 h1 h2]
  have hu : u24 b0 b1 b2 = b0 + 256 * b1 + 65536 * b2 := rfl
  unfold write24 uint32Of
  split
  · simp only [List.cons.injEq, and_true]
    refine ⟨?_, ?_, ?_⟩ <;> omega
  · simp only [List.cons.injEq, and_true]
    refine ⟨?_, ?_, ?_⟩ <;> omega

theorem read24_write24 (v : Int) (hlo : -8388608 ≤ v) (hhi : v < 8388608) :
    read24 (uint32Of v % 256) (uint32Of v / 256 % 256) (uint32Of v / 65536 % 256) = v := by
  have h0 : uint32Of v % 256 < 256 := Nat.mod_lt _ (by norm_num)
  have h1 : uint32Of v / 256 % 256 < 256 := Nat.mod_lt _ (by norm_num)
  have h2 : uint32Of v / 65536 % 256 < 256 := Nat.mod_lt _ (by norm_num)
  rw [read24_eq h0 h1 h2]
  have hv : uint32Of v = (v % 4294967296).toNat := rfl
  unfold u24
  split <;> omega

theorem decode24_write24 (v : Int) (hlo : -8388608 ≤ v) (hhi : v < 8388608) :
    decode24 (write24 v) = some [v] := by
  have h := read24_write24 v hlo hhi
  simp [write24, decode24] at h ⊢
  exact h

theorem toInt16_range {u : Nat} (h : u < 65536) :
    -32768 ≤ toInt16 u ∧ toInt16 u < 32768 := by
  unfold toInt16; split <;> constructor <;> omega

theorem write16_toInt16 {b0 b1 : Nat} (h0 : b0 < 256) (h1 : b1 < 256) :
    write16 (toInt16 (b0 + 256 * b1)) = [b0, b1] := by
  unfold write16 toInt16
  split <;> simp only [List.cons.injEq, and_true] <;> refine ⟨?_, ?_⟩ <;> omega

theorem decode16_write16 (v : Int) (hlo : -32768 ≤ v) (hhi : v < 32768) :
    decode16 (write16 v) = some [v] := by
  have key : toInt16 ((v % 65536).toNat % 256 + 256 * ((v % 65536).toNat / 256 % 256)) = v := by
    unfold toInt16
    split <;> omega
  show (decode16 []).map _ = _
  simp [decode16, key]

theorem toInt32_range {u : Nat} (h : u < 4294967296) :
    -2147483648 ≤ toInt32 u ∧ toInt32 u < 2147483648 := by
  unfold toInt32; split <;> constructor <;> omega

theorem write32_toInt32 {b0 b1 b2 b3 : Nat}
    (h0 : b0 < 256) (h1 : b1 < 256) (h2 : b2 < 256) (h3 : b3 < 256) :
    write32 (toInt32 (b0 + 256 * b1 + 65536 * b2 + 16777216 * b3)) = [b0, b1, b2, b3] := by
  unfold write32 uint32Of toInt32
  split <;> simp only [List.cons.injEq, and_true] <;> refine ⟨?_, ?_, ?_, ?_⟩ <;> omega

theorem decode32_write32 (v : Int) (hlo : -2147483648 ≤ v) (hhi : v < 2147483648) :
    decode32 (write32 v) = some [v] := by
  have key : toInt32 (uint32Of v % 256 + 256 * (uint32Of v / 256 % 256) +
      65536 * (uint32Of v / 65536 % 256) + 16777216 * (uint32Of v / 16777216 % 256)) = v := by
    unfold uint32Of toInt32
    split <;> omega
  show (decode32 []).map _ = _
  simp [decode32, key]

/-- C1: reading a 24-bit sample sign-extends the three little-endian bytes to
a signed 32-bit integer: when bit 23 (mask 0x800000) of the 24-bit value is
set the result is the value OR 0xFF000000 read as a signed 32-bit integer (its
upper byte is 255 and it is negative), otherwise the upper 8 bits stay zero
and the result is the plain value; equivalently the result is the two's
complement value of the 24-bit group. -/
theorem read24_sign_extension (b0 b1 b2 : Nat)
    (h0 : b0 < 256) (h1 : b1 < 256) (h2 : b2 < 256) :
    (u24 b0 b1 b2 &&& 0x800000 ≠ 0 →
      read24 b0 b1 b2 = toInt32 (u24 b0 b1 b2 ||| 0xFF000000) ∧
      uint32Of (read24 b0 b1 b2) / 16777216 = 255 ∧ read24 b0 b1 b2 < 0) ∧
    (u24 b0 b1 b2 &&& 0x800000 = 0 →
      read24 b0 b1 b2 = (u24 b0 b1 b2 : Int) ∧
      uint32Of (read24 b0 b1 b2) / 16777216 = 0 ∧ 0 ≤ read24 b0 b1 b2) ∧
    read24 b0 b1 b2 =
      (if u24 b0 b1 b2 < 8388608 then (u24 b0 b1 b2 : Int)
       else (u24 b0 b1 b2 : Int) - 16777216) := by
  have hu : u24 b0 b1 b2 < 16777216 := by unfold u24; omega
  have he := read24_eq h0 h1 h2
  refine ⟨?_, ?_, he⟩
  · intro hs
    have hge : ¬ u24 b0 b1 b2 < 8388608 := fun hlt => hs ((and_sign_bit hu).mpr hlt)
    refine ⟨by unfold read24; rw [if_pos hs], ?_, ?_⟩
    · rw [he, if_neg hge]
      unfold uint32Of
      omega
    · rw [he, if_neg hge]
      omega
  · intro hz
    have hlt : u24 b0 b1 b2 < 8388608 := (and_sign_bit hu).mp hz
    refine ⟨?_, ?_, ?_⟩
    · rw [he, if_pos hlt]
    · rw [he, if_pos hlt]
      unfold uint32Of
      omega
    · rw [he, if_pos hlt]
      omega

/-- Witness for C1 at the three concrete byte triples named by the spec:
all-zero bytes decode to 0, FF FF 7F to 8388607 and 00 00 80 to -8388608. -/
theorem read24_sign_extension_witness :
    read24 0 0 0 = 0 ∧ read24 255 255 127 = 8388607 ∧ read24 0 0 128 = -8388608 := by
  refine ⟨?_, ?_, ?_⟩
  · have h := (read24_sign_extension 0 0 0 (by norm_num) (by norm_num) (by norm_num)).2.2
    rw [h]
    norm_num [u24]
  · have h := (read24_sign_extension 255 255 127 (by norm_num) (by norm_num) (by norm_num)).2.2
    rw [h]
    norm_num [u24]
  · have h := (read24_sign_extension 0 0 128 (by norm_num) (by norm_num) (by norm_num)).2.2
    rw [h]
    norm_num [u24]

/-- C2: the 24-bit write emits exactly the low three little-endian bytes of
the 32-bit sample, and it is inverse to the 24-bit read: decoding the written
bytes of any value in the signed 24-bit range gives the value back, and
writing a decoded byte triple reproduces the bytes. -/
theorem write24_read24_inverse (v : Int) (b0 b1 b2 : Nat)
    (hlo : -8388608 ≤ v) (hhi : v ≤ 8388607)
    (h0 : b0 < 256) (h1 : b1 < 256) (h2 : b2 < 256) :
    write24 v = [uint32Of v % 256, uint32Of v / 256 % 256, uint32Of v / 65536 % 256] ∧
    decode24 (write24 v) = some [v] ∧
    write24 (read24 b0 b1 b2) = [b0, b1, b2] :=
  ⟨rfl, decode24_write24 v hlo (by omega), write24_read24 h0 h1 h2⟩

/-- Witness for C2 at the extreme negative value and its byte triple. -/
theorem write24_read24_inverse_witness :
    decode24 (write24 (-8388608)) = some [-8388608] ∧ write24 (read24 0 0 128) = [0, 0, 128] := by
  have h := write24_read24_inverse (-8388608) 0 0 128 (by norm_num) (by norm_num)
    (by norm_num) (by norm_num) (by norm_num)
  exact ⟨h.2.1, h.2.2⟩

/-! ### Buffer-level codec lemmas -/

theorem decode16_total : ∀ bs : List Nat, 2 ∣ bs.length → (∀ b ∈ bs, b < 256) →
    ∃ s, decode16 bs = some s ∧ s.length = bs.length / 2 ∧
      ∀ v ∈ s, -32768 ≤ v ∧ v < 32768 := by
  intro bs
  induction bs using decode16.induct with
  | case1 =>
    intro _ _
    exact ⟨[], rfl, rfl, by simp⟩
  | case2 b0 b1 rest ih =>
    intro hdvd hb
    obtain ⟨s, hs, hlen, hrange⟩ := ih (by simp at hdvd ⊢; omega)
      (fun b hb2 => hb b (by simp [hb2]))
    refine ⟨toInt16 (b0 + 256 * b1) :: s, by simp [decode16, hs], by simp [hlen]; omega, ?_⟩
    intro v hv
    rcases List.mem_cons.mp hv with h | h
    · subst h
      have h0 : b0 < 256 := hb b0 (by simp)
      have h1 : b1 < 256 := hb b1 (by simp)
      exact toInt16_range (by omega)
    · exact hrange v h
  | case3 x =>
    intro hdvd _
    simp at hdvd

theorem decode24_total : ∀ bs : List Nat, 3 ∣ bs.length → (∀ b ∈ bs, b < 256) →
    ∃ s, decode24 bs = some s ∧ s.length = bs.length / 3 ∧
      ∀ v ∈ s, -8388608 ≤ v ∧ v < 8388608 := by
  intro bs
  induction bs using decode24.induct with
  | case1 =>
    intro _ _
    exact ⟨[], rfl, rfl, by simp⟩
  | case2 b0 b1 b2 rest ih =>
    intro hdvd hb
    obtain ⟨s, hs, hlen, hrange⟩ := ih (by simp at hdvd ⊢; omega)
      (fun b hb2 => hb b (by simp [hb2]))
    refine ⟨read24 b0 b1 b2 :: s, by simp [decode24, hs], by simp [hlen]; omega, ?_⟩
    intro v hv
    rcases List.mem_cons.mp hv with h | h
    · subst h
      exact read24_range (hb b0 (by simp)) (hb b1 (by simp)) (hb b2 (by simp))
    · exact hrange v h
  | case3 x =>
    intro hdvd _
    simp at hdvd
  | case4 x y =>
    intro hdvd _
    simp at hdvd
    omega

theorem decode32_total : ∀ bs : List Nat, 4 ∣ bs.length → (∀ b ∈ bs, b < 256) →
    ∃ s, decode32 bs = some s ∧ s.length = bs.length / 4 ∧
      ∀ v ∈ s, -2147483648 ≤ v ∧ v < 2147483648 := by
  intro bs
  induction bs using decode32.induct with
  | case1 =>
    intro _ _
    exact ⟨[], rfl, rfl, by simp⟩
  | case2 b0 b1 b2 b3 rest ih =>
    intro hdvd hb
    obtain ⟨s, hs, hlen, hrange⟩ := ih (by simp at hdvd ⊢; omega)
      (fun b hb2 => hb b (by simp [hb2]))
    refine ⟨toInt32 (b0 + 256 * b1 + 65536 * b2 + 16777216 * b3) :: s,
      by simp [decode32, hs], by simp [hlen]; omega, ?_⟩
    intro v hv
    rcases List.mem_cons.mp hv with h | h
    · subst h
      have h0 : b0 < 256 := hb b0 (by simp)
      have h1 : b1 < 256 := hb b1 (by simp)
      have h2 : b2 < 256 := hb b2 (by simp)
      have h3 : b3 < 256 := hb b3 (by simp)
      exact toInt32_range (by omega)
    · exact hrange v h
  | case3 x =>
    intro hdvd _
    simp at hdvd
  | case4 x y =>
    intro hdvd _
    simp at hdvd
    omega
  | case5 x y z =>
    intro hdvd _
    simp at hdvd
    omega

theorem decode16_flat (s : List Int) (hr : ∀ v ∈ s, -32768 ≤ v ∧ v < 32768) :
    decode16 ((s.map write16).flatten) = some s := by
  induction s with
  | nil => rfl
  | cons v s ih =>
    have hv := hr v (by simp)
    have key : toInt16 ((v % 65536).toNat % 256 + 256 * ((v % 65536).toNat / 256 % 256)) = v := by
      unfold toInt16
      split <;> omega
    simp only [List.map_cons, List.flatten_cons, write16, List.cons_append, List.nil_append]
    simp only [decode16]
    rw [ih (fun w hw => hr w (by simp [hw]))]
    simp [key]

theorem decode24_flat (s : List Int) (hr : ∀ v ∈ s, -8388608 ≤ v ∧ v < 8388608) :
    decode24 ((s.map write24).flatten) = some s := by
  induction s with
  | nil => rfl
  | cons v s ih =>
    have hv := hr v (by simp)
    have key := read24_write24 v hv.1 hv.2
    simp only [List.map_cons, List.flatten_cons, write24, List.cons_append, List.nil_append]
    simp only [decode24]
    rw [ih (fun w hw => hr w (by simp [hw]))]
    simp [key]

theorem decode32_flat (s : List Int) (hr : ∀ v ∈ s, -2147483648 ≤ v ∧ v < 2147483648) :
    decode32 ((s.map write32).flatten) = some s := by
  induction s with
  | nil => rfl
  | cons v s ih =>
    have hv := hr v (by simp)
    have key : toInt32 (uint32Of v % 256 + 256 * (uint32Of v / 256 % 256) +
        65536 * (uint32Of v / 65536 % 256) + 16777216 * (uint32Of v / 16777216 % 256)) = v := by
      unfold uint32Of toInt32
      split <;> omega
    simp only [List.map_cons, List.flatten_cons, write32, List.cons_append, List.nil_append]
    simp only [decode32]
    rw [ih (fun w hw => hr w (by simp [hw]))]
    simp [key]

theorem encode16_length (s : List Int) : ((s.map write16).flatten).length = 2 * s.length := by
  induction s with
  | nil => rfl
  | cons v s ih =>
    simp only [List.map_cons, List.flatten_cons, List.length_append, ih, write16]
    simp
    omega

theorem encode24_length (s : List Int) : ((s.map write24).flatten).length = 3 * s.length := by
  induction s with
  | nil => rfl
  | cons v s ih =>
    simp only [List.map_cons, List.flatten_cons, List.length_append, ih, write24]
    simp
    omega

theorem encode32_length (s : List Int) : ((s.map write32).flatten).length = 4 * s.length := by
  induction s with
  | nil => rfl
  | cons v s ih =>
    simp only [List.map_cons, List.flatten_cons, List.length_append, ih, write32]
    simp
    omega

theorem encode16_lt (s : List Int) : ∀ b ∈ (s.map write16).flatten, b < 256 := by
  induction s with
  | nil => simp
  | cons v s ih =>
    intro b hb
    simp only [List.map_cons, List.flatten_cons, List.mem_append, write16] at hb
    rcases hb with hb | hb
    · rcases List.mem_cons.mp hb with h | h
      · subst h; exact Nat.mod_lt _ (by norm_num)
      · simp at h
        subst h
        exact Nat.mod_lt _ (by norm_num)
    · exact ih b hb

theorem encode24_lt (s : List Int) : ∀ b ∈ (s.map write24).flatten, b < 256 := by
  induction s with
  | nil => simp
  | cons v s ih =>
    intro b hb
    simp only [List.map_cons, List.flatten_cons, List.mem_append, write24] at hb
    rcases hb with hb | hb
    · simp at hb
      rcases hb with h | h | h <;> (subst h; exact Nat.mod_lt _ (by norm_num))
    · exact ih b hb

theorem encode32_lt (s : List Int) : ∀ b ∈ (s.map write32).flatten, b < 256 := by
  induction s with
  | nil => simp
  | cons v s ih =>
    intro b hb
    simp only [List.map_cons, List.flatten_cons, List.mem_append, write32] at hb
    rcases hb with hb | hb
    · simp at hb
      rcases hb with h | h | h | h <;> (subst h; exact Nat.mod_lt _ (by norm_num))
    · exact ih b hb

theorem inRange2 (v : Int) : inRange 2 v ↔ -32768 ≤ v ∧ v < 32768 := by
  unfold inRange
  norm_num

theorem inRange3 (v : Int) : inRange 3 v ↔ -8388608 ≤ v ∧ v < 8388608 := by
  unfold inRange
  norm_num

theorem inRange4 (v : Int) : inRange 4 v ↔ -2147483648 ≤ v ∧ v < 2147483648 := by
  unfold inRange
  norm_num

theorem decodeSamples_total {sw : Nat} (hsw : sw = 2 ∨ sw = 3 ∨ sw = 4) (bs : List Nat)
    (hdvd : sw ∣ bs.length) (hb : ∀ b ∈ bs, b < 256) :
    ∃ s, decodeSamples sw bs = Except.ok s ∧ s.length = bs.length / sw ∧
      ∀ v ∈ s, inRange sw v := by
  rcases hsw with h | h | h <;> subst h
  · obtain ⟨s, hs, hlen, hr⟩ := decode16_total bs hdvd hb
    exact ⟨s, by simp [decodeSamples, hs], hlen, fun v hv => (inRange2 v).mpr (hr v hv)⟩
  · obtain ⟨s, hs, hlen, hr⟩ := decode24_total bs hdvd hb
    exact ⟨s, by simp [decodeSamples, hs], hlen, fun v hv => (inRange3 v).mpr (hr v hv)⟩
  · obtain ⟨s, hs, hlen, hr⟩ := decode32_total bs hdvd hb
    exact ⟨s, by simp [decodeSamples, hs], hlen, fun v hv => (inRange4 v).mpr (hr v hv)⟩

theorem decodeSamples_flat {sw : Nat} (hsw : sw = 2 ∨ sw = 3 ∨ sw = 4) (s : List Int)
    (hr : ∀ v ∈ s, inRange sw v) :
    decodeSamples sw (encodeSamples sw s) = Except.ok s := by
  rcases hsw with h | h | h <;> subst h
  · simp [decodeSamples, encodeSamples, decode16_flat s (fun v hv => (inRange2 v).mp (hr v hv))]
  · simp [decodeSamples, encodeSamples, decode24_flat s (fun v hv => (inRange3 v).mp (hr v hv))]
  · simp [decodeSamples, encodeSamples, decode32_flat s (fun v hv => (inRange4 v).mp (hr v hv))]

theorem encodeSamples_length {sw : Nat} (hsw : sw = 2 ∨ sw = 3 ∨ sw = 4) (s : List Int) :
    (encodeSamples sw s).length = sw * s.length := by
  rcases hsw with h | h | h <;> subst h
  · rw [show encodeSamples 2 s = (s.map write16).flatten from by simp [encodeSamples]]
    exact encode16_length s
  · rw [show encodeSamples 3 s = (s.map write24).flatten from by simp [encodeSamples]]
    exact encode24_length s
  · rw [show encodeSamples 4 s = (s.map write32).flatten from by simp [encodeSamples]]
    exact encode32_length s

theorem encodeSamples_lt (sw : Nat) (s : List Int) : ∀ b ∈ encodeSamples sw s, b < 256 := by
  unfold encodeSamples
  split
  · exact encode16_lt s
  · split
    · exact encode24_lt s
    · split
      · exact encode32_lt s
      · simp

/-! ### List helpers -/

theorem getD_oob {α : Type} (xs : List α) (d : α) : ∀ n, xs.length ≤ n → xs.getD n d = d := by
  induction xs with
  | nil => intro n _; cases n <;> rfl
  | cons x xs ih =>
    intro n hn
    cases n with
    | zero => simp at hn
    | succ n => simpa using ih n (by simpa using hn)

theorem getD_append_left {α : Type} (xs ys : List α) (d : α) :
    ∀ n, n < xs.length → (xs ++ ys).getD n d = xs.getD n d := by
  induction xs with
  | nil => intro n hn; simp at hn
  | cons x xs ih =>
    intro n hn
    cases n with
    | zero => rfl
    | succ n => simpa using ih n (by simpa using hn)

theorem getD_append_right {α : Type} (xs ys : List α) (d : α) :
    ∀ n, (xs ++ ys).getD (xs.length + n) d = ys.getD n d := by
  induction xs with
  | nil => intro n; simp
  | cons x xs ih =>
    intro n
    simpa [Nat.succ_add] using ih n

theorem getD_take {α : Type} (xs : List α) (d : α) :
    ∀ n c, c < n → (xs.take n).getD c d = xs.getD c d := by
  induction xs with
  | nil => intro n c _; simp
  | cons x xs ih =>
    intro n c hc
    cases n with
    | zero => omega
    | succ n =>
      cases c with
      | zero => rfl
      | succ c => simpa using ih n c (by omega)

theorem getD_drop {α : Type} (xs : List α) (d : α) :
    ∀ n c, (xs.drop n).getD c d = xs.getD (n + c) d := by
  induction xs with
  | nil => intro n c; simp
  | cons x xs ih =>
    intro n c
    cases n with
    | zero => simp
    | succ n =>
      rw [List.drop_succ_cons, ih n c, Nat.succ_add]
      rfl

theorem getD_replicate {α : Type} (a d : α) :
    ∀ n i, i < n → (List.replicate n a).getD i d = a := by
  intro n
  induction n with
  | zero => intro i hi; omega
  | succ n ih =>
    intro i hi
    cases i with
    | zero => rfl
    | succ i => simpa [List.replicate_succ] using ih i (by omega)

theorem getD_map {α β : Type} (f : α → β) (m : List α) (d : β) (d0 : α) :
    ∀ n, n < m.length → (m.map f).getD n d = f (m.getD n d0) := by
  induction m with
  | nil => intro n hn; simp at hn
  | cons x xs ih =>
    intro n hn
    cases n with
    | zero => rfl
    | succ n => simpa using ih n (by simpa using hn)

/-! ### Reshape (chunks) lemmas -/

theorem chunksF_flatten (k : Nat) :
    ∀ fuel xs, xs.length ≤ fuel → (chunksF (k + 1) fuel xs).flatten = xs := by
  intro fuel
  induction fuel with
  | zero =>
    intro xs h
    have hx : xs = [] := List.eq_nil_of_length_eq_zero (by omega)
    subst hx
    rfl
  | succ fuel ih =>
    intro xs h
    cases xs with
    | nil => rfl
    | cons x t =>
      show (((x :: t).take (k + 1)) :: chunksF (k + 1) fuel ((x :: t).drop (k + 1))).flatten = _
      rw [List.flatten_cons, ih _ (by simp at h ⊢; omega)]
      exact List.take_append_drop _ _

theorem chunksF_rows (k : Nat) :
    ∀ fuel xs, xs.length ≤ fuel → (k + 1) ∣ xs.length →
      ∀ row ∈ chunksF (k + 1) fuel xs, row.length = k + 1 := by
  intro fuel
  induction fuel with
  | zero =>
    intro xs h _ row hrow
    have hx : xs = [] := List.eq_nil_of_length_eq_zero (by omega)
    subst hx
    simp [chunksF] at hrow
  | succ fuel ih =>
    intro xs h hdvd row hrow
    cases xs with
    | nil => simp [chunksF] at hrow
    | cons x t =>
      have hge : k + 1 ≤ (x :: t).length :=
        Nat.le_of_dvd (by simp) hdvd
      rcases List.mem_cons.mp hrow with hr | hr
      · subst hr
        simp only [List.length_take, List.length_cons]
        simp only [List.length_cons] at hge
        omega
      · exact ih _ (by simp at h ⊢; omega)
          (by simpa [List.length_drop] using Nat.dvd_sub' hdvd dvd_rfl) row hr

theorem chunksF_length (k : Nat) :
    ∀ fuel xs, xs.length ≤ fuel → (k + 1) ∣ xs.length →
      (chunksF (k + 1) fuel xs).length = xs.length / (k + 1) := by
  intro fuel
  induction fuel with
  | zero =>
    intro xs h _
    have hx : xs = [] := List.eq_nil_of_length_eq_zero (by omega)
    subst hx
    simp [chunksF]
  | succ fuel ih =>
    intro xs h hdvd
    cases xs with
    | nil => simp [chunksF]
    | cons x t =>
      have hge : k + 1 ≤ (x :: t).length := Nat.le_of_dvd (by simp) hdvd
      show (((x :: t).take (k + 1)) :: chunksF (k + 1) fuel ((x :: t).drop (k + 1))).length = _
      rw [List.length_cons, ih _ (by simp at h ⊢; omega)
        (by simpa [List.length_drop] using Nat.dvd_sub' hdvd dvd_rfl)]
      rw [List.length_drop, Nat.div_eq_sub_div (by omega) hge]

theorem chunks_flatten (k : Nat) (xs : List Int) : (chunks (k + 1) xs).flatten = xs :=
  chunksF_flatten k xs.length xs le_rfl

theorem chunks_rows (k : Nat) (xs : List Int) (hdvd : (k + 1) ∣ xs.length) :
    ∀ row ∈ chunks (k + 1) xs, row.length = k + 1 :=
  chunksF_rows k xs.length xs le_rfl hdvd

theorem chunks_length (k : Nat) (xs : List Int) (hdvd : (k + 1) ∣ xs.length) :
    (chunks (k + 1) xs).length = xs.length / (k + 1) :=
  chunksF_length k xs.length xs le_rfl hdvd

theorem chunks_mem (k : Nat) (xs : List Int) :
    ∀ row ∈ chunks (k + 1) xs, ∀ v ∈ row, v ∈ xs := by
  intro row hrow v hv
  rw [← chunks_flatten k xs]
  exact List.mem_flatten.mpr ⟨row, hrow, hv⟩

theorem flatten_getD (m : List (List Int)) (c : Nat) (_hc : 0 < c)
    (hrows : ∀ row ∈ m, row.length = c) :
    ∀ f j, j < c → f < m.length → m.flatten.getD (f * c + j) 0 = mget m f j := by
  induction m with
  | nil => intro f j _ hf; simp at hf
  | cons row m ih =>
    intro f j hj hf
    have hrl : row.length = c := hrows row (by simp)
    cases f with
    | zero =>
      rw [List.flatten_cons]
      simp only [Nat.zero_mul, Nat.zero_add]
      rw [getD_append_left _ _ _ j (by omega)]
      rfl
    | succ f =>
      rw [List.flatten_cons]
      have he : (f + 1) * c + j = row.length + (f * c + j) := by rw [hrl]; ring
      rw [he, getD_append_right]
      exact ih (fun r hr => hrows r (by simp [hr])) f j hj (by simpa using hf)

theorem chunks_mget (k : Nat) (xs : List Int) (hdvd : (k + 1) ∣ xs.length) (f j : Nat)
    (hj : j < k + 1) (hf : f < xs.length / (k + 1)) :
    mget (chunks (k + 1) xs) f j = xs.getD (f * (k + 1) + j) 0 := by
  rw [← flatten_getD (chunks (k + 1) xs) (k + 1) (by omega) (chunks_rows k xs hdvd) f j hj
    (by rw [chunks_length k xs hdvd]; exact hf)]
  rw [chunks_flatten]

/-! ### File-level codec lemmas -/

theorem readData_length (w : Wav) :
    w.readData.length = w.nframes * w.nchannels * w.sampwidth := by
  unfold Wav.readData Wav.nframes
  rw [List.length_take, Nat.mul_assoc]
  exact Nat.min_eq_left (Nat.div_mul_le_self _ _)

theorem readData_eq {w : Wav} (hwf : w.wf) (hnz : w.nchannels * w.sampwidth ≠ 0) :
    w.readData = w.bytes := by
  unfold Wav.readData Wav.nframes
  have h1 : w.bytes.length / (w.nchannels * w.sampwidth) * w.nchannels * w.sampwidth
      = w.bytes.length := by
    rcases hwf.2 with ⟨q, hq⟩
    rw [hq, Nat.mul_comm (w.nchannels * w.sampwidth) q,
      Nat.mul_div_cancel q (Nat.pos_of_ne_zero hnz)]
    ring
  rw [h1]
  apply List.take_length

theorem decoded_spec {w : Wav} (hwf : w.wf)
    (hsw : w.sampwidth = 2 ∨ w.sampwidth = 3 ∨ w.sampwidth = 4) :
    decodeSamples w.sampwidth w.readData = Except.ok w.decoded ∧
    w.decoded.length = w.nframes * w.nchannels ∧
    ∀ v ∈ w.decoded, inRange w.sampwidth v := by
  have hdvd : w.sampwidth ∣ w.readData.length := by
    rw [readData_length]
    exact ⟨w.nframes * w.nchannels, by ring⟩
  have hb : ∀ b ∈ w.readData, b < 256 := fun b hb => hwf.1 b (List.mem_of_mem_take hb)
  obtain ⟨s, hs, hlen, hr⟩ := decodeSamples_total hsw w.readData hdvd hb
  have hd : w.decoded = s := by unfold Wav.decoded; rw [hs]
  refine ⟨by rw [hd]; exact hs, ?_, ?_⟩
  · rw [hd, hlen, readData_length]
    rcases hsw with h | h | h <;> rw [h] <;> omega
  · intro v hv
    exact hr v (hd ▸ hv)

/-! ### Matrix update (numpy slice assignment) lemmas -/

theorem setCols_length {row pr : List Int} {i : Nat} (hpr : pr.length = 2)
    (h : 2 * i + 2 ≤ row.length) : (setCols row i pr).length = row.length := by
  unfold setCols
  rw [List.length_append, List.length_append, List.length_take, List.length_drop, hpr]
  omega

theorem setCols_getD {row pr : List Int} {i : Nat} (hpr : pr.length = 2)
    (h : 2 * i + 2 ≤ row.length) (c : Nat) :
    (setCols row i pr).getD c 0 =
      if c < 2 * i then row.getD c 0
      else if c < 2 * i + 2 then pr.getD (c - 2 * i) 0
      else row.getD c 0 := by
  unfold setCols
  have hta : (row.take (2 * i)).length = 2 * i := by rw [List.length_take]; omega
  have hl : (row.take (2 * i) ++ pr).length = 2 * i + 2 := by
    rw [List.length_append, hta, hpr]
  by_cases h1 : c < 2 * i
  · rw [if_pos h1, getD_append_left _ _ _ c (by omega),
      getD_append_left _ _ _ c (by omega), getD_take row 0 (2 * i) c h1]
  · rw [if_neg h1]
    by_cases h2 : c < 2 * i + 2
    · rw [if_pos h2, getD_append_left _ _ _ c (by omega)]
      have h3 := getD_append_right (row.take (2 * i)) pr 0 (c - 2 * i)
      rw [hta, show 2 * i + (c - 2 * i) = c from by omega] at h3
      exact h3
    · rw [if_neg h2]
      have h3 := getD_append_right (row.take (2 * i) ++ pr) (row.drop (2 * i + 2)) 0
        (c - (2 * i + 2))
      rw [hl, show 2 * i + 2 + (c - (2 * i + 2)) = c from by omega] at h3
      rw [h3, getD_drop]
      congr 1
      omega

theorem setTrackRows_length (i : Nat) :
    ∀ m tr, (setTrackRows i m tr).length = m.length := by
  intro m tr
  induction m, tr using setTrackRows.induct i with
  | case1 m => simp [setTrackRows]
  | case2 tr _ => cases tr <;> simp [setTrackRows]
  | case3 row m pr tr ih => simp only [setTrackRows, List.length_cons, ih]

theorem setTrackRows_rows (i : Nat) :
    ∀ m tr, (∀ row ∈ m, row.length = 12) → (∀ pr ∈ tr, pr.length = 2) → 2 * i + 2 ≤ 12 →
      ∀ row ∈ setTrackRows i m tr, row.length = 12 := by
  intro m tr
  induction m, tr using setTrackRows.induct i with
  | case1 m =>
    intro hm _ _ row hrow
    simp only [setTrackRows] at hrow
    exact hm row hrow
  | case2 tr htr =>
    intro _ _ _ row hrow
    simp [setTrackRows] at hrow
  | case3 row m pr tr ih =>
    intro hm hpr hi r hr
    rcases List.mem_cons.mp hr with h | h
    · subst h
      rw [setCols_length (hpr pr (by simp)) (by rw [hm row (by simp)]; omega)]
      exact hm row (by simp)
    · exact ih (fun x hx => hm x (by simp [hx])) (fun x hx => hpr x (by simp [hx])) hi r h

theorem setTrackRows_getD (i : Nat) :
    ∀ m tr, tr.length ≤ m.length → ∀ f,
      (setTrackRows i m tr).getD f [] =
        match tr[f]? with
        | some pr => setCols (m.getD f []) i pr
        | none => m.getD f [] := by
  intro m tr
  induction m, tr using setTrackRows.induct i with
  | case1 m =>
    intro _ f
    simp [setTrackRows]
  | case2 tr htr =>
    intro hlen f
    have h0 : tr = [] := List.eq_nil_of_length_eq_zero (by simpa using hlen)
    subst h0
    simp [setTrackRows]
  | case3 row m pr tr ih =>
    intro hlen f
    cases f with
    | zero => simp [setTrackRows]
    | succ f =>
      simp only [setTrackRows, List.getD_cons_succ, List.getElem?_cons_succ]
      exact ih (by simpa using hlen) f

theorem pr_mem_of_getElem {tr : List (List Int)} {f : Nat} {pr : List Int}
    (h : tr[f]? = some pr) : pr ∈ tr := by
  obtain ⟨hf, he⟩ := List.getElem?_eq_some_iff.mp h
  exact he ▸ List.getElem_mem hf

theorem getD_mem {α : Type} (xs : List α) (d : α) :
    ∀ n, n < xs.length → xs.getD n d ∈ xs := by
  induction xs with
  | nil => intro n hn; simp at hn
  | cons x xs ih =>
    intro n hn
    cases n with
    | zero => simp
    | succ n =>
      rw [List.getD_cons_succ]
      exact List.mem_cons_of_mem x (ih n (by simpa using hn))

theorem foldl_setTrack_mget :
    ∀ (ts : List (List (List Int))) (k : Nat) (m : List (List Int)),
      (∀ row ∈ m, row.length = 12) →
      2 * (k + ts.length) ≤ 12 →
      (∀ tr ∈ ts, (∀ pr ∈ tr, pr.length = 2) ∧ tr.length ≤ m.length) →
      ∀ f c, c < 12 →
        mget ((ts.enumFrom k).foldl (fun acc p => setTrackRows p.1 acc p.2) m) f c =
          if 2 * k ≤ c ∧ c < 2 * (k + ts.length) then
            match (ts[c / 2 - k]?.bind fun tr => tr[f]?) with
            | some pr => pr.getD (c % 2) 0
            | none => mget m f c
          else mget m f c := by
  intro ts
  induction ts with
  | nil =>
    intro k m _ _ _ f c _
    rw [if_neg (by simp only [List.length_nil]; omega)]
    rfl
  | cons tr ts ih =>
    intro k m hm hk hts f c hc
    have hlen1 : (tr :: ts).length = ts.length + 1 := by simp
    have htr2 : ∀ pr ∈ tr, pr.length = 2 := (hts tr (by simp)).1
    have htrm : tr.length ≤ m.length := (hts tr (by simp)).2
    rw [List.enumFrom_cons, List.foldl_cons]
    have hm2rows : ∀ row ∈ setTrackRows k m tr, row.length = 12 :=
      setTrackRows_rows k m tr hm htr2 (by omega)
    have hm2len : (setTrackRows k m tr).length = m.length := setTrackRows_length k m tr
    have ihs := ih (k + 1) (setTrackRows k m tr) hm2rows (by omega)
      (fun t ht => ⟨(hts t (by simp [ht])).1, by rw [hm2len]; exact (hts t (by simp [ht])).2⟩)
      f c hc
    rw [ihs]
    have hmget_some : ∀ pr, tr[f]? = some pr →
        mget (setTrackRows k m tr) f c = (setCols (m.getD f []) k pr).getD c 0 := by
      intro pr hp
      show (List.getD _ f []).getD c 0 = _
      rw [setTrackRows_getD k m tr htrm f, hp]
    have hmget_none : tr[f]? = none → mget (setTrackRows k m tr) f c = mget m f c := by
      intro hp
      show (List.getD _ f []).getD c 0 = _
      rw [setTrackRows_getD k m tr htrm f, hp]
      rfl
    have hside : (c < 2 * k ∨ 2 * k + 2 ≤ c) →
        mget (setTrackRows k m tr) f c = mget m f c := by
      intro hs
      cases htrf : tr[f]? with
      | none => exact hmget_none htrf
      | some pr =>
        rw [hmget_some pr htrf]
        have hf : f < tr.length := (List.getElem?_eq_some_iff.mp htrf).1
        have hpr2 : pr.length = 2 := htr2 pr (pr_mem_of_getElem htrf)
        have hrow : (m.getD f []).length = 12 := hm _ (getD_mem m [] f (by omega))
        rw [setCols_getD hpr2 (by omega) c]
        rcases hs with hs | hs
        · rw [if_pos hs]
          rfl
        · rw [if_neg (by omega), if_neg (by omega)]
          rfl
    by_cases hcond : 2 * k ≤ c ∧ c < 2 * (k + (tr :: ts).length)
    · rw [if_pos hcond]
      by_cases hc0 : c / 2 = k
      · rw [if_neg (by omega)]
        rw [show c / 2 - k = 0 from by omega, List.getElem?_cons_zero, Option.some_bind]
        cases htrf : tr[f]? with
        | none =>
          rw [hmget_none htrf]
        | some pr =>
          rw [hmget_some pr htrf]
          show _ = pr.getD (c % 2) 0
          have hf : f < tr.length := (List.getElem?_eq_some_iff.mp htrf).1
          have hpr2 : pr.length = 2 := htr2 pr (pr_mem_of_getElem htrf)
          have hrow : (m.getD f []).length = 12 := hm _ (getD_mem m [] f (by omega))
          rw [setCols_getD hpr2 (by omega) c, if_neg (by omega), if_pos (by omega)]
          congr 1
          omega
      · have hge2 : 2 * (k + 1) ≤ c := by omega
        rw [if_pos ⟨hge2, by omega⟩]
        rw [show c / 2 - k = (c / 2 - (k + 1)) + 1 from by omega, List.getElem?_cons_succ]
        have hmm := hside (Or.inr (by omega))
        cases (ts[c / 2 - (k + 1)]?.bind fun t => t[f]?) with
        | some pr => rfl
        | none => exact hmm
    · rw [if_neg hcond]
      rw [if_neg (by omega)]
      exact hside (by omega)

theorem flatten_length_uniform (m : List (List Int)) (c : Nat)
    (h : ∀ row ∈ m, row.length = c) : m.flatten.length = c * m.length := by
  induction m with
  | nil => simp
  | cons row m ih =>
    rw [List.flatten_cons, List.length_append, h row (by simp),
      ih (fun r hr => h r (by simp [hr])), List.length_cons]
    ring

theorem foldl_setTrack_length (l : List (Nat × List (List Int))) :
    ∀ m : List (List Int),
      (l.foldl (fun acc p => setTrackRows p.1 acc p.2) m).length = m.length := by
  induction l with
  | nil => intro m; rfl
  | cons p l ih =>
    intro m
    rw [List.foldl_cons, ih, setTrackRows_length]

theorem foldl_setTrack_rows (l : List (Nat × List (List Int))) :
    ∀ m : List (List Int),
      (∀ row ∈ m, row.length = 12) →
      (∀ p ∈ l, (∀ pr ∈ p.2, pr.length = 2) ∧ 2 * p.1 + 2 ≤ 12) →
      ∀ row ∈ l.foldl (fun acc p => setTrackRows p.1 acc p.2) m, row.length = 12 := by
  induction l with
  | nil => intro m hm _; exact hm
  | cons p l ih =>
    intro m hm hl
    rw [List.foldl_cons]
    exact ih _ (setTrackRows_rows p.1 m p.2 hm (hl p (by simp)).1 (hl p (by simp)).2)
      (fun q hq => hl q (by simp [hq]))

theorem mem_enumFrom_spec {α : Type} :
    ∀ (l : List α) (k : Nat) (p : Nat × α), p ∈ l.enumFrom k →
      k ≤ p.1 ∧ p.1 < k + l.length ∧ p.2 ∈ l := by
  intro l
  induction l with
  | nil => intro k p hp; simp at hp
  | cons x l ih =>
    intro k p hp
    rw [List.enumFrom_cons] at hp
    rcases List.mem_cons.mp hp with h | h
    · subst h
      refine ⟨le_rfl, by simp, by simp⟩
    · obtain ⟨h1, h2, h3⟩ := ih (k + 1) p h
      exact ⟨by omega, by simp at h2 ⊢; omega, by simp [h3]⟩

theorem buildMultitrack_length (tracks : List (List (List Int))) (maxF : Nat) :
    (buildMultitrack tracks maxF).length = maxF := by
  unfold buildMultitrack
  rw [foldl_setTrack_length, List.length_replicate]

theorem buildMultitrack_rows (tracks : List (List (List Int))) (maxF : Nat)
    (hlen : tracks.length ≤ 6) (htr2 : ∀ tr ∈ tracks, ∀ pr ∈ tr, pr.length = 2) :
    ∀ row ∈ buildMultitrack tracks maxF, row.length = 12 := by
  unfold buildMultitrack
  apply foldl_setTrack_rows
  · intro row hrow
    rw [List.eq_of_mem_replicate hrow]
    exact List.length_replicate _ _
  · intro p hp
    obtain ⟨h1, h2, h3⟩ := mem_enumFrom_spec tracks 0 p hp
    exact ⟨htr2 p.2 h3, by omega⟩

theorem mget_zeros (maxF : Nat) (f c : Nat) :
    mget (List.replicate maxF (List.replicate 12 (0 : Int))) f c = 0 := by
  unfold mget
  by_cases hf : f < maxF
  · rw [getD_replicate _ _ _ _ hf]
    by_cases hcc : c < 12
    · rw [getD_replicate _ _ _ _ hcc]
    · rw [getD_oob _ _ _ (by rw [List.length_replicate]; omega)]
  · have h1 : (List.replicate maxF (List.replicate 12 (0 : Int))).getD f [] = [] :=
      getD_oob _ _ f (by rw [List.length_replicate]; omega)
    rw [h1]
    rfl

theorem buildMultitrack_mget (tracks : List (List (List Int))) (maxF : Nat)
    (hlen : tracks.length ≤ 6)
    (htr2 : ∀ tr ∈ tracks, ∀ pr ∈ tr, pr.length = 2)
    (hmax : ∀ tr ∈ tracks, tr.length ≤ maxF)
    (f c : Nat) (hc : c < 12) :
    mget (buildMultitrack tracks maxF) f c =
      match (tracks[c / 2]?.bind fun tr => tr[f]?) with
      | some pr => pr.getD (c % 2) 0
      | none => 0 := by
  show mget ((tracks.enumFrom 0).foldl (fun acc p => setTrackRows p.1 acc p.2)
    (List.replicate maxF (List.replicate 12 0))) f c = _
  rw [foldl_setTrack_mget tracks 0 (List.replicate maxF (List.replicate 12 0))
    (fun row hrow => by rw [List.eq_of_mem_replicate hrow]; exact List.length_replicate _ _)
    (by omega)
    (fun tr ht => ⟨htr2 tr ht, by rw [List.length_replicate]; exact hmax tr ht⟩) f c hc]
  by_cases hcond : 2 * 0 ≤ c ∧ c < 2 * (0 + tracks.length)
  · rw [if_pos hcond]
    simp only [Nat.sub_zero]
    cases (tracks[c / 2]?.bind fun tr => tr[f]?) with
    | some pr => rfl
    | none => exact mget_zeros maxF f c
  · rw [if_neg hcond]
    rw [mget_zeros maxF f c]
    have hn : tracks[c / 2]? = none := List.getElem?_eq_none (by omega)
    rw [hn]
    rfl

theorem chunks_flatten' (c : Nat) (hc : 0 < c) (xs : List Int) :
    (chunks c xs).flatten = xs := by
  obtain ⟨k, rfl⟩ : ∃ k, c = k + 1 := ⟨c - 1, by omega⟩
  exact chunks_flatten k xs

theorem chunks_rows' (c : Nat) (hc : 0 < c) (xs : List Int) (hdvd : c ∣ xs.length) :
    ∀ row ∈ chunks c xs, row.length = c := by
  obtain ⟨k, rfl⟩ : ∃ k, c = k + 1 := ⟨c - 1, by omega⟩
  exact chunks_rows k xs hdvd

theorem chunks_length' (c : Nat) (hc : 0 < c) (xs : List Int) (hdvd : c ∣ xs.length) :
    (chunks c xs).length = xs.length / c := by
  obtain ⟨k, rfl⟩ : ∃ k, c = k + 1 := ⟨c - 1, by omega⟩
  exact chunks_length k xs hdvd

theorem chunks_mem' (c : Nat) (hc : 0 < c) (xs : List Int) :
    ∀ row ∈ chunks c xs, ∀ v ∈ row, v ∈ xs := by
  obtain ⟨k, rfl⟩ : ∃ k, c = k + 1 := ⟨c - 1, by omega⟩
  exact chunks_mem k xs

theorem chunks_mget' (c : Nat) (hc : 0 < c) (xs : List Int) (hdvd : c ∣ xs.length)
    (f j : Nat) (hj : j < c) (hf : f < xs.length / c) :
    mget (chunks c xs) f j = xs.getD (f * c + j) 0 := by
  obtain ⟨k, rfl⟩ : ∃ k, c = k + 1 := ⟨c - 1, by omega⟩
  exact chunks_mget k xs hdvd f j hj hf

theorem getD_range {n t : Nat} (h : t < n) : (List.range n).getD t 0 = t := by
  rw [List.getD_eq_getElem?_getD, List.getElem?_range h]
  rfl

/-! ### Multiplexer loop lemmas -/

theorem decodeSamples_err {sw : Nat} {bs : List Nat} {e : TpError}
    (h : decodeSamples sw bs = Except.error e) :
    e = TpError.malformedData ∨ e = TpError.unsupportedBitDepth := by
  unfold decodeSamples at h
  repeat' split at h
  all_goals simp_all

theorem loadTracks_ok (refW refR : Nat) (hsw3 : refW = 2 ∨ refW = 3 ∨ refW = 4) :
    ∀ ws : List Wav,
      (∀ w ∈ ws, w.wf ∧ w.nchannels = 2 ∧ w.sampwidth = refW ∧ w.framerate = refR) →
      loadTracks refW refR ws = Except.ok (ws.map fun w => chunks 2 w.decoded) := by
  intro ws
  induction ws with
  | nil => intro _; rfl
  | cons w ws ih =>
    intro h
    obtain ⟨hwf, hch, hsw, hr⟩ := h w (by simp)
    have hdec := (decoded_spec hwf (by rw [hsw]; exact hsw3)).1
    rw [hsw] at hdec
    show loadTracks refW refR (w :: ws) = _
    unfold loadTracks
    rw [if_neg (by simp [hch]), if_neg (by simp [hsw]), if_neg (by simp [hr]),
      hdec, ih (fun x hx => h x (by simp [hx]))]
    rfl

theorem loadTracks_no_count_err (refW refR : Nat) :
    ∀ ws : List Wav,
      loadTracks refW refR ws ≠ Except.error TpError.tooManyTracks ∧
      loadTracks refW refR ws ≠ Except.error TpError.noValidInputs := by
  intro ws
  induction ws with
  | nil => simp [loadTracks]
  | cons w ws ih =>
    show (if w.nchannels ≠ 2 then _ else _) ≠ _ ∧ (if w.nchannels ≠ 2 then _ else _) ≠ _
    split
    · simp
    · split
      · simp
      · split
        · simp
        · cases hd : decodeSamples refW w.readData with
          | error e =>
            rcases decodeSamples_err hd with h | h <;> simp [h]
          | ok s =>
            cases hl : loadTracks refW refR ws with
            | error e =>
              rw [hl] at ih
              simpa using ih
            | ok ts => simp

theorem loadTracks_rate_err (refW refR : Nat) (hsw3 : refW = 2 ∨ refW = 3 ∨ refW = 4) :
    ∀ ws : List Wav,
      (∀ w ∈ ws, w.wf ∧ w.nchannels = 2 ∧ w.sampwidth = refW) →
      (∃ w ∈ ws, w.framerate ≠ refR) →
      loadTracks refW refR ws = Except.error TpError.sampleRateMismatch := by
  intro ws
  induction ws with
  | nil => intro _ hex; simp at hex
  | cons w ws ih =>
    intro h hex
    obtain ⟨hwf, hch, hsw⟩ := h w (by simp)
    show (if w.nchannels ≠ 2 then _ else _) = _
    rw [if_neg (by simp [hch]), if_neg (by simp [hsw])]
    by_cases hr : w.framerate ≠ refR
    · rw [if_pos hr]
    · rw [if_neg hr]
      have hdec := (decoded_spec hwf (by rw [hsw]; exact hsw3)).1
      rw [hsw] at hdec
      rw [hdec]
      have hex2 : ∃ x ∈ ws, x.framerate ≠ refR := by
        rcases hex with ⟨x, hx, hxr⟩
        rcases List.mem_cons.mp hx with h1 | h1
        · subst h1; exact absurd hxr hr
        · exact ⟨x, h1, hxr⟩
      rw [ih (fun x hx => h x (by simp [hx])) hex2]

theorem loadTracks_chan_err (refW refR : Nat) (hsw3 : refW = 2 ∨ refW = 3 ∨ refW = 4) :
    ∀ ws : List Wav,
      (∀ w ∈ ws, w.wf ∧ w.sampwidth = refW ∧ w.framerate = refR) →
      (∃ w ∈ ws, w.nchannels ≠ 2) →
      loadTracks refW refR ws = Except.error TpError.channelCountMismatch := by
  intro ws
  induction ws with
  | nil => intro _ hex; simp at hex
  | cons w ws ih =>
    intro h hex
    obtain ⟨hwf, hsw, hr⟩ := h w (by simp)
    show (if w.nchannels ≠ 2 then _ else _) = _
    by_cases hch : w.nchannels ≠ 2
    · rw [if_pos hch]
    · rw [if_neg hch, if_neg (by simp [hsw]), if_neg (by simp [hr])]
      have hch2 : w.nchannels = 2 := by omega
      have hdec := (decoded_spec hwf (by rw [hsw]; exact hsw3)).1
      rw [hsw] at hdec
      rw [hdec]
      have hex2 : ∃ x ∈ ws, x.nchannels ≠ 2 := by
        rcases hex with ⟨x, hx, hxr⟩
        rcases List.mem_cons.mp hx with h1 | h1
        · subst h1; exact absurd hxr (by omega)
        · exact ⟨x, h1, hxr⟩
      rw [ih (fun x hx => h x (by simp [hx])) hex2]

/-! ### Demultiplexer correctness -/

theorem decoded_of_bytes {w : Wav} (hwf : w.wf) (hnz : w.nchannels * w.sampwidth ≠ 0)
    {s : List Int} (hdec : decodeSamples w.sampwidth w.bytes = Except.ok s) :
    w.decoded = s := by
  unfold Wav.decoded
  rw [readData_eq hwf hnz, hdec]

theorem exportCorrect {X : Wav} (hwf : X.wf) (hch : X.nchannels = 12)
    (hsw : X.sampwidth = 2 ∨ X.sampwidth = 3 ∨ X.sampwidth = 4) :
    exportModel (some X) =
      ⟨true, none, true, (List.range 6).map (demuxTrack X (chunks 12 X.decoded))⟩ := by
  have hdec := (decoded_spec hwf hsw).1
  show (if X.nchannels ≠ 12 then _ else _) = _
  rw [if_neg (by simp [hch]), hdec]

theorem decoded_dvd12 {X : Wav} (hwf : X.wf) (hch : X.nchannels = 12)
    (hsw : X.sampwidth = 2 ∨ X.sampwidth = 3 ∨ X.sampwidth = 4) :
    (12 : Nat) ∣ X.decoded.length :=
  ⟨X.nframes, by rw [(decoded_spec hwf hsw).2.1, hch]; ring⟩

theorem decoded_div12 {X : Wav} (hwf : X.wf) (hch : X.nchannels = 12)
    (hsw : X.sampwidth = 2 ∨ X.sampwidth = 3 ∨ X.sampwidth = 4) :
    X.decoded.length / 12 = X.nframes := by
  rw [(decoded_spec hwf hsw).2.1, hch]
  exact Nat.mul_div_cancel _ (by norm_num)

theorem exportTrack_spec {X : Wav} (hwf : X.wf) (hch : X.nchannels = 12)
    (hsw : X.sampwidth = 2 ∨ X.sampwidth = 3 ∨ X.sampwidth = 4)
    (t : Nat) (ht : t < 6) :
    (demuxTrack X (chunks 12 X.decoded) t).nchannels = 2 ∧
    (demuxTrack X (chunks 12 X.decoded) t).sampwidth = X.sampwidth ∧
    (demuxTrack X (chunks 12 X.decoded) t).framerate = X.framerate ∧
    (demuxTrack X (chunks 12 X.decoded) t).wf ∧
    (demuxTrack X (chunks 12 X.decoded) t).nframes = X.nframes ∧
    ∀ f j, f < X.nframes → j < 2 →
      (demuxTrack X (chunks 12 X.decoded) t).sample f j = X.sample f (2 * t + j) := by
  obtain ⟨hdec, hdlen, hdr⟩ := decoded_spec hwf hsw
  have hdvd12 := decoded_dvd12 hwf hch hsw
  have hq := decoded_div12 hwf hch hsw
  have hrows : ∀ row ∈ chunks 12 X.decoded, row.length = 12 :=
    chunks_rows' 12 (by norm_num) _ hdvd12
  have hrows_len : (chunks 12 X.decoded).length = X.nframes := by
    rw [chunks_length' 12 (by norm_num) _ hdvd12, hq]
  have hstereo_rows : ∀ row ∈
      (chunks 12 X.decoded).map (fun r => [r.getD (2 * t) 0, r.getD (2 * t + 1) 0]),
      row.length = 2 := by
    intro row hrow
    obtain ⟨r, _, hre⟩ := List.mem_map.mp hrow
    rw [← hre]
    rfl
  have hstereo_len : ((chunks 12 X.decoded).map
      (fun r => [r.getD (2 * t) 0, r.getD (2 * t + 1) 0])).length = X.nframes := by
    rw [List.length_map, hrows_len]
  have hflat_len : (((chunks 12 X.decoded).map
      (fun r => [r.getD (2 * t) 0, r.getD (2 * t + 1) 0])).flatten).length
      = 2 * X.nframes := by
    rw [flatten_length_uniform _ 2 hstereo_rows, hstereo_len]
  have hflat_range : ∀ v ∈ ((chunks 12 X.decoded).map
      (fun r => [r.getD (2 * t) 0, r.getD (2 * t + 1) 0])).flatten,
      inRange X.sampwidth v := by
    intro v hv
    obtain ⟨row, hrow, hvr⟩ := List.mem_flatten.mp hv
    obtain ⟨r, hr, hre⟩ := List.mem_map.mp hrow
    rw [← hre] at hvr
    have hrl : r.length = 12 := hrows r hr
    have hvin : v ∈ r := by
      simp only [List.mem_cons, List.not_mem_nil, or_false] at hvr
      rcases hvr with h | h <;> subst h
      · exact getD_mem r 0 (2 * t) (by omega)
      · exact getD_mem r 0 (2 * t + 1) (by omega)
    exact hdr v (chunks_mem' 12 (by norm_num) X.decoded r hr v hvin)
  have hwf_tr : (demuxTrack X (chunks 12 X.decoded) t).wf := by
    constructor
    · exact encodeSamples_lt _ _
    · show (2 * X.sampwidth) ∣ (encodeSamples X.sampwidth _).length
      rw [encodeSamples_length hsw, hflat_len]
      exact ⟨X.nframes, by ring⟩
  have hswpos : 0 < X.sampwidth := by rcases hsw with h | h | h <;> omega
  have hnf_tr : (demuxTrack X (chunks 12 X.decoded) t).nframes = X.nframes := by
    show (encodeSamples X.sampwidth _).length / (2 * X.sampwidth) = X.nframes
    rw [encodeSamples_length hsw, hflat_len,
      show X.sampwidth * (2 * X.nframes) = X.nframes * (2 * X.sampwidth) from by ring]
    exact Nat.mul_div_cancel _ (by omega)
  have hdec_tr : (demuxTrack X (chunks 12 X.decoded) t).decoded =
      ((chunks 12 X.decoded).map
        (fun r => [r.getD (2 * t) 0, r.getD (2 * t + 1) 0])).flatten :=
    decoded_of_bytes hwf_tr (by show 2 * X.sampwidth ≠ 0; omega)
      (decodeSamples_flat hsw _ hflat_range)
  refine ⟨rfl, rfl, rfl, hwf_tr, hnf_tr, ?_⟩
  intro f j hf hj
  show (demuxTrack X (chunks 12 X.decoded) t).decoded.getD (f * 2 + j) 0
    = X.decoded.getD (f * X.nchannels + (2 * t + j)) 0
  rw [hdec_tr, hch]
  rw [flatten_getD _ 2 (by norm_num) hstereo_rows f j hj (by rw [hstereo_len]; exact hf)]
  show (((chunks 12 X.decoded).map
    (fun r => [r.getD (2 * t) 0, r.getD (2 * t + 1) 0])).getD f []).getD j 0 = _
  rw [getD_map _ _ _ [] f (by rw [hrows_len]; exact hf)]
  rcases (by omega : j = 0 ∨ j = 1) with hj0 | hj0 <;> subst hj0
  · rw [List.getD_cons_zero]
    show mget (chunks 12 X.decoded) f (2 * t) = _
    rw [chunks_mget' 12 (by norm_num) X.decoded hdvd12 f (2 * t) (by omega)
      (by rw [hq]; exact hf)]
    norm_num
  · rw [List.getD_cons_succ, List.getD_cons_zero]
    show mget (chunks 12 X.decoded) f (2 * t + 1) = _
    rw [chunks_mget' 12 (by norm_num) X.decoded hdvd12 f (2 * t + 1) (by omega)
      (by rw [hq]; exact hf)]

/-! ### Multiplexer correctness -/

theorem foldl_max_init : ∀ (l : List Nat) (a : Nat), a ≤ l.foldl max a := by
  intro l
  induction l with
  | nil => intro a; exact le_rfl
  | cons x l ih =>
    intro a
    exact le_trans (Nat.le_max_left a x) (ih (max a x))

theorem foldl_max_mem : ∀ (l : List Nat) (a x : Nat), x ∈ l → x ≤ l.foldl max a := by
  intro l
  induction l with
  | nil => intro a x hx; simp at hx
  | cons y l ih =>
    intro a x hx
    rcases List.mem_cons.mp hx with h | h
    · subst h
      exact le_trans (Nat.le_max_right a x) (foldl_max_init l (max a x))
    · exact ih (max a y) x h

theorem foldl_max_le : ∀ (l : List Nat) (a b : Nat), a ≤ b → (∀ x ∈ l, x ≤ b) →
    l.foldl max a ≤ b := by
  intro l
  induction l with
  | nil => intro a b hab _; exact hab
  | cons y l ih =>
    intro a b hab hl
    exact ih (max a y) b (Nat.max_le.mpr ⟨hab, hl y (by simp)⟩)
      (fun x hx => hl x (by simp [hx]))

theorem foldl_ext' {α β : Type} (f g : β → α → β) :
    ∀ (l : List α) (b : β), (∀ a ∈ l, ∀ x, f x a = g x a) → l.foldl f b = l.foldl g b := by
  intro l
  induction l with
  | nil => intro b _; rfl
  | cons a l ih =>
    intro b h
    rw [List.foldl_cons, List.foldl_cons, h a (by simp) b]
    exact ih _ (fun x hx y => h x (by simp [hx]) y)

theorem getD_eq_getElem {α : Type} (xs : List α) (d : α) (n : Nat) (h : n < xs.length) :
    xs.getD n d = xs[n] := by
  rw [List.getD_eq_getElem?_getD, List.getElem?_eq_getElem h]
  rfl

theorem mem_matrix_entry {M : List (List Int)} {v : Int} (hv : v ∈ M.flatten) :
    ∃ f c, f < M.length ∧ c < (M.getD f []).length ∧ mget M f c = v := by
  obtain ⟨row, hrow, hvr⟩ := List.mem_flatten.mp hv
  obtain ⟨f, hf, hfe⟩ := List.mem_iff_getElem.mp hrow
  obtain ⟨c, hc, hce⟩ := List.mem_iff_getElem.mp hvr
  refine ⟨f, c, hf, ?_, ?_⟩
  · rw [getD_eq_getElem _ _ f hf, hfe]
    exact hc
  · unfold mget
    rw [getD_eq_getElem _ _ f hf, hfe, getD_eq_getElem _ _ c hc, hce]

theorem inRange_zero {sw : Nat} (hsw : sw = 2 ∨ sw = 3 ∨ sw = 4) : inRange sw (0 : Int) := by
  rcases hsw with h | h | h <;> subst h <;> unfold inRange <;> norm_num

/-- The decoded buffer of a well-formed stereo file splits into rows of 2. -/
theorem stereo_track_facts {w : Wav} (hwf : w.wf) (hch : w.nchannels = 2)
    (hsw : w.sampwidth = 2 ∨ w.sampwidth = 3 ∨ w.sampwidth = 4) :
    (2 : Nat) ∣ w.decoded.length ∧ (chunks 2 w.decoded).length = w.nframes ∧
    (∀ pr ∈ chunks 2 w.decoded, pr.length = 2) := by
  have hdlen := (decoded_spec hwf hsw).2.1
  have hdvd : (2 : Nat) ∣ w.decoded.length := ⟨w.nframes, by rw [hdlen, hch]; ring⟩
  refine ⟨hdvd, ?_, chunks_rows' 2 (by norm_num) _ hdvd⟩
  rw [chunks_length' 2 (by norm_num) _ hdvd, hdlen, hch]
  exact Nat.mul_div_cancel _ (by norm_num)

theorem muxOutput_spec (refW refR : Nat) (hsw3 : refW = 2 ∨ refW = 3 ∨ refW = 4)
    (ws : List Wav) (hlen : ws.length ≤ 6)
    (hall : ∀ w ∈ ws, w.wf ∧ w.nchannels = 2 ∧ w.sampwidth = refW) :
    (muxOutput refW refR (ws.map fun w => chunks 2 w.decoded)).nchannels = 12 ∧
    (muxOutput refW refR (ws.map fun w => chunks 2 w.decoded)).sampwidth = refW ∧
    (muxOutput refW refR (ws.map fun w => chunks 2 w.decoded)).framerate = refR ∧
    (muxOutput refW refR (ws.map fun w => chunks 2 w.decoded)).wf ∧
    (muxOutput refW refR (ws.map fun w => chunks 2 w.decoded)).nframes
      = (ws.map Wav.nframes).foldl max 0 ∧
    ∀ f c, c < 12 →
      (muxOutput refW refR (ws.map fun w => chunks 2 w.decoded)).sample f c =
        if c / 2 < ws.length ∧ f < (ws.getD (c / 2) w0).nframes
        then (ws.getD (c / 2) w0).sample f (c % 2) else 0 := by
  have htrfacts : ∀ w ∈ ws, (2 : Nat) ∣ w.decoded.length ∧
      (chunks 2 w.decoded).length = w.nframes ∧ ∀ pr ∈ chunks 2 w.decoded, pr.length = 2 :=
    fun w hw => stereo_track_facts (hall w hw).1 (hall w hw).2.1
      (by rw [(hall w hw).2.2]; exact hsw3)
  have hmaxF : ((ws.map fun w => chunks 2 w.decoded).foldl (fun m t => max m t.length) 0)
      = (ws.map Wav.nframes).foldl max 0 := by
    rw [List.foldl_map, List.foldl_map]
    exact foldl_ext' _ _ ws 0 (fun w hw x => by rw [(htrfacts w hw).2.1])
  have htlen : ∀ tr ∈ (ws.map fun w => chunks 2 w.decoded), ∀ pr ∈ tr, pr.length = 2 := by
    intro tr htr
    obtain ⟨w, hw, hwe⟩ := List.mem_map.mp htr
    rw [← hwe]
    exact (htrfacts w hw).2.2
  have hfold2 : ((ws.map fun w => chunks 2 w.decoded).foldl (fun m t => max m t.length) 0)
      = (((ws.map fun w => chunks 2 w.decoded).map List.length).foldl max 0) :=
    (List.foldl_map _ _ _ _).symm
  have htmax : ∀ tr ∈ (ws.map fun w => chunks 2 w.decoded),
      tr.length ≤ ((ws.map fun w => chunks 2 w.decoded).foldl (fun m t => max m t.length) 0) := by
    intro tr htr
    rw [hfold2]
    exact foldl_max_mem _ 0 tr.length (List.mem_map.mpr ⟨tr, htr, rfl⟩)
  have hT6 : (ws.map fun w => chunks 2 w.decoded).length ≤ 6 := by
    rw [List.length_map]
    exact hlen
  have hMrows : ∀ row ∈ buildMultitrack (ws.map fun w => chunks 2 w.decoded)
      ((ws.map fun w => chunks 2 w.decoded).foldl (fun m t => max m t.length) 0),
      row.length = 12 := buildMultitrack_rows _ _ hT6 htlen
  have hMlen : (buildMultitrack (ws.map fun w => chunks 2 w.decoded)
      ((ws.map fun w => chunks 2 w.decoded).foldl (fun m t => max m t.length) 0)).length
      = ((ws.map fun w => chunks 2 w.decoded).foldl (fun m t => max m t.length) 0) :=
    buildMultitrack_length _ _
  have hMflatlen : (buildMultitrack (ws.map fun w => chunks 2 w.decoded)
      ((ws.map fun w => chunks 2 w.decoded).foldl (fun m t => max m t.length) 0)).flatten.length
      = 12 * ((ws.map fun w => chunks 2 w.decoded).foldl (fun m t => max m t.length) 0) := by
    rw [flatten_length_uniform _ 12 hMrows, hMlen]
  have hMrange : ∀ v ∈ (buildMultitrack (ws.map fun w => chunks 2 w.decoded)
      ((ws.map fun w => chunks 2 w.decoded).foldl (fun m t => max m t.length) 0)).flatten,
      inRange refW v := by
    intro v hv
    obtain ⟨f, c, hf, hc, hmv⟩ := mem_matrix_entry hv
    have hc12 : c < 12 := by
      rw [hMrows _ (getD_mem _ [] f hf)] at hc
      exact hc
    rw [← hmv, buildMultitrack_mget _ _ hT6 htlen htmax f c hc12]
    cases hb : ((ws.map fun w => chunks 2 w.decoded)[c / 2]?.bind fun tr => tr[f]?) with
    | none => exact inRange_zero hsw3
    | some pr =>
      obtain ⟨tr, hT, htrf⟩ := Option.bind_eq_some.mp hb
      have htrT : tr ∈ (ws.map fun w => chunks 2 w.decoded) := by
        obtain ⟨h1, h2⟩ := List.getElem?_eq_some_iff.mp hT
        exact h2 ▸ List.getElem_mem h1
      obtain ⟨w, hwmem, hweq⟩ := List.mem_map.mp htrT
      have hpr : pr ∈ tr := pr_mem_of_getElem htrf
      have hpr2 : pr.length = 2 := htlen tr htrT pr hpr
      have hvp : pr.getD (c % 2) 0 ∈ pr := getD_mem pr 0 (c % 2) (by omega)
      have hvdec : pr.getD (c % 2) 0 ∈ w.decoded := by
        rw [← hweq] at hpr
        exact chunks_mem' 2 (by norm_num) w.decoded pr hpr _ hvp
      have hdr := (decoded_spec (hall w hwmem).1
        (by rw [(hall w hwmem).2.2]; exact hsw3)).2.2 _ hvdec
      rw [(hall w hwmem).2.2] at hdr
      exact hdr
  have hswpos : 0 < refW := by rcases hsw3 with h | h | h <;> omega
  have hwfY : (muxOutput refW refR (ws.map fun w => chunks 2 w.decoded)).wf := by
    constructor
    · exact encodeSamples_lt _ _
    · show (12 * refW) ∣ (encodeSamples refW _).length
      rw [encodeSamples_length hsw3, hMflatlen]
      exact ⟨(ws.map fun w => chunks 2 w.decoded).foldl (fun m t => max m t.length) 0, by ring⟩
  have hnfY : (muxOutput refW refR (ws.map fun w => chunks 2 w.decoded)).nframes
      = ((ws.map fun w => chunks 2 w.decoded).foldl (fun m t => max m t.length) 0) := by
    show (encodeSamples refW _).length / (12 * refW) = _
    rw [encodeSamples_length hsw3, hMflatlen,
      show refW * (12 * ((ws.map fun w => chunks 2 w.decoded).foldl
        (fun m t => max m t.length) 0))
      = ((ws.map fun w => chunks 2 w.decoded).foldl (fun m t => max m t.length) 0) * (12 * refW)
      from by ring]
    exact Nat.mul_div_cancel _ (by omega)
  have hdecY : (muxOutput refW refR (ws.map fun w => chunks 2 w.decoded)).decoded
      = (buildMultitrack (ws.map fun w => chunks 2 w.decoded)
        ((ws.map fun w => chunks 2 w.decoded).foldl (fun m t => max m t.length) 0)).flatten :=
    decoded_of_bytes hwfY (by show 12 * refW ≠ 0; omega) (decodeSamples_flat hsw3 _ hMrange)
  refine ⟨rfl, rfl, rfl, hwfY, by rw [hnfY, hmaxF], ?_⟩
  intro f c hc
  show (muxOutput refW refR (ws.map fun w => chunks 2 w.decoded)).decoded.getD
    (f * 12 + c) 0 = _
  rw [hdecY]
  by_cases hfmax : f < ((ws.map fun w => chunks 2 w.decoded).foldl (fun m t => max m t.length) 0)
  · rw [flatten_getD _ 12 (by norm_num) hMrows f c hc (by rw [hMlen]; exact hfmax)]
    rw [buildMultitrack_mget _ _ hT6 htlen htmax f c hc]
    rw [List.getElem?_map]
    cases hwc : ws[c / 2]? with
    | none =>
      have hge : ws.length ≤ c / 2 := List.getElem?_eq_none_iff.mp hwc
      rw [if_neg (fun hcon => by omega)]
      rfl
    | some w =>
      have hlt : c / 2 < ws.length := (List.getElem?_eq_some_iff.mp hwc).1
      have hwg : ws.getD (c / 2) w0 = w := by
        rw [getD_eq_getElem _ _ _ hlt, (List.getElem?_eq_some_iff.mp hwc).2]
      have hwmem : w ∈ ws := by
        rw [← (List.getElem?_eq_some_iff.mp hwc).2]
        exact List.getElem_mem hlt
      obtain ⟨hdvd2, hclen, hrows2⟩ := htrfacts w hwmem
      have hdl2 : w.decoded.length / 2 = w.nframes := by
        rw [← hclen, chunks_length' 2 (by norm_num) _ hdvd2]
      rw [Option.map_some', Option.some_bind]
      by_cases hfw : f < w.nframes
      · have hfc : f < (chunks 2 w.decoded).length := by rw [hclen]; exact hfw
        rw [List.getElem?_eq_getElem hfc, if_pos ⟨hlt, by rw [hwg]; exact hfw⟩, hwg]
        show ((chunks 2 w.decoded)[f]).getD (c % 2) 0
          = w.decoded.getD (f * w.nchannels + c % 2) 0
        rw [← getD_eq_getElem (chunks 2 w.decoded) [] f hfc]
        show mget (chunks 2 w.decoded) f (c % 2) = _
        rw [chunks_mget' 2 (by norm_num) w.decoded hdvd2 f (c % 2) (by omega)
          (by rw [hdl2]; exact hfw), (hall w hwmem).2.1]
      · have hfc : (chunks 2 w.decoded).length ≤ f := by rw [hclen]; omega
        rw [List.getElem?_eq_none hfc,
          if_neg (fun hcon => by rw [hwg] at hcon; exact absurd hcon.2 (by omega))]
  · rw [getD_oob _ _ _ (by rw [hMflatlen]; omega)]
    by_cases hlt : c / 2 < ws.length
    · have hnf_le : (ws.getD (c / 2) w0).nframes
          ≤ ((ws.map fun w => chunks 2 w.decoded).foldl (fun m t => max m t.length) 0) := by
        rw [hmaxF]
        exact foldl_max_mem _ 0 _ (List.mem_map.mpr ⟨ws.getD (c / 2) w0, getD_mem ws w0 _ hlt, rfl⟩)
      rw [if_neg (fun hcon => by omega)]
    · rw [if_neg (fun hcon => hlt hcon.1)]

theorem filterMap_id_map_some {α : Type} (l : List α) : (l.map some).filterMap id = l := by
  induction l with
  | nil => rfl
  | cons a l ih => simp [ih]

theorem importCorrect (ws : List Wav) (hne : ws ≠ []) (hlen : ws.length ≤ 6)
    (hall : ∀ w ∈ ws, w.wf ∧ w.nchannels = 2 ∧ w.sampwidth = (ws.headD w0).sampwidth ∧
      w.framerate = (ws.headD w0).framerate)
    (hsw3 : (ws.headD w0).sampwidth = 2 ∨ (ws.headD w0).sampwidth = 3 ∨
      (ws.headD w0).sampwidth = 4) :
    importModel (ws.map some) =
      Except.ok (muxOutput (ws.headD w0).sampwidth (ws.headD w0).framerate
        (ws.map fun w => chunks 2 w.decoded)) := by
  have hpos : 0 < ws.length := List.length_pos.mpr hne
  have hhead : ws.headD w0 ∈ ws := by
    cases ws with
    | nil => exact absurd rfl hne
    | cons a l => simp
  simp only [importModel, filterMap_id_map_some]
  rw [if_neg (by omega), if_neg (by omega),
    if_neg (by have := (hall _ hhead).2.1; omega)]
  rw [loadTracks_ok _ _ hsw3 ws
    (fun w hw => ⟨(hall w hw).1, (hall w hw).2.1, (hall w hw).2.2.1, (hall w hw).2.2.2⟩)]

/-! ### Claim theorems -/

/-- C8: for every input container whose channel count is not 12, the export
fails with ChannelCountMismatch and writes no track files. -/
theorem demux_channel_check (w : Wav) (hch : w.nchannels ≠ 12) :
    (exportModel (some w)).ok = false ∧
    (exportModel (some w)).err = some TpError.channelCountMismatch ∧
    (exportModel (some w)).tracks = [] := by
  have h : exportModel (some w) = ⟨false, some TpError.channelCountMismatch, true, []⟩ := by
    show (if w.nchannels ≠ 12 then _ else _) = _
    rw [if_pos hch]
  rw [h]
  exact ⟨rfl, rfl, rfl⟩

/-- Witness for C8 at a concrete stereo (2-channel) input. -/
theorem demux_channel_check_witness :
    (exportModel (some ⟨2, 2, 44100, []⟩)).ok = false ∧
    (exportModel (some ⟨2, 2, 44100, []⟩)).err = some TpError.channelCountMismatch ∧
    (exportModel (some ⟨2, 2, 44100, []⟩)).tracks = [] :=
  demux_channel_check ⟨2, 2, 44100, []⟩ (by decide)

/-- C9: the export creates the output directory right after the input
existence check and before opening or validating the container, so whenever
the input exists the directory exists afterwards even if the export fails;
when the input is missing, no directory is created. -/
theorem demux_mkdir_before_validation (w : Wav) :
    (exportModel (some w)).mkdirDone = true ∧
    ((exportModel (some w)).ok = false → (exportModel (some w)).mkdirDone = true) ∧
    (exportModel (none : Option Wav)).mkdirDone = false := by
  have hmk : (exportModel (some w)).mkdirDone = true := by
    by_cases h : w.nchannels ≠ 12
    · have he : exportModel (some w) = ⟨false, some TpError.channelCountMismatch, true, []⟩ := by
        show (if w.nchannels ≠ 12 then _ else _) = _
        rw [if_pos h]
      rw [he]
    · cases hd : decodeSamples w.sampwidth w.readData with
      | error e =>
        have he : exportModel (some w) = ⟨false, some e, true, []⟩ := by
          show (if w.nchannels ≠ 12 then _ else _) = _
          rw [if_neg h, hd]
        rw [he]
      | ok s =>
        have he : exportModel (some w)
            = ⟨true, none, true, (List.range 6).map (demuxTrack w (chunks 12 s))⟩ := by
          show (if w.nchannels ≠ 12 then _ else _) = _
          rw [if_neg h, hd]
        rw [he]
  exact ⟨hmk, fun _ => hmk, rfl⟩

/-- C5: demultiplexing extracts columns 2t and 2t+1 of the 12-channel buffer
into track t, preserving frame order; hence if channel k holds the constant
value k, output track i has left channel constant 2i and right channel
constant 2i+1. -/
theorem demux_channel_slicing (X : Wav) (hwf : X.wf) (hch : X.nchannels = 12)
    (hsw : X.sampwidth = 2 ∨ X.sampwidth = 3 ∨ X.sampwidth = 4) :
    (exportModel (some X)).tracks.length = 6 ∧
    (∀ t f j, t < 6 → f < X.nframes → j < 2 →
      ((exportModel (some X)).tracks.getD t w0).sample f j = X.sample f (2 * t + j)) ∧
    ((∀ f k, f < X.nframes → k < 12 → X.sample f k = (k : Int)) →
      ∀ t f, t < 6 → f < X.nframes →
        ((exportModel (some X)).tracks.getD t w0).sample f 0 = (2 * t : Int) ∧
        ((exportModel (some X)).tracks.getD t w0).sample f 1 = (2 * t : Int) + 1) := by
  have hE := exportCorrect hwf hch hsw
  have hget : ∀ t, t < 6 → (exportModel (some X)).tracks.getD t w0
      = demuxTrack X (chunks 12 X.decoded) t := by
    intro t ht
    rw [hE]
    show ((List.range 6).map (demuxTrack X (chunks 12 X.decoded))).getD t w0 = _
    rw [getD_map _ _ _ 0 t (by simp [ht]), getD_range ht]
  have hsample : ∀ t f j, t < 6 → f < X.nframes → j < 2 →
      ((exportModel (some X)).tracks.getD t w0).sample f j = X.sample f (2 * t + j) := by
    intro t f j ht hf hj
    rw [hget t ht]
    exact (exportTrack_spec hwf hch hsw t ht).2.2.2.2.2 f j hf hj
  refine ⟨by rw [hE]; simp, hsample, ?_⟩
  intro hconst t f ht hf
  constructor
  · rw [hsample t f 0 ht hf (by omega), hconst f (2 * t + 0) hf (by omega)]
    push_cast
    ring
  · rw [hsample t f 1 ht hf (by omega), hconst f (2 * t + 1) hf (by omega)]
    push_cast
    ring

/-- Witness for C5 at a one-frame 16-bit container whose channel k holds k. -/
theorem demux_channel_slicing_witness :
    ((exportModel (some ⟨12, 2, 48000,
      [0, 0, 1, 0, 2, 0, 3, 0, 4, 0, 5, 0, 6, 0, 7, 0, 8, 0, 9, 0, 10, 0, 11, 0]⟩)).tracks.getD
        2 w0).sample 0 0 = 4 ∧
    ((exportModel (some ⟨12, 2, 48000,
      [0, 0, 1, 0, 2, 0, 3, 0, 4, 0, 5, 0, 6, 0, 7, 0, 8, 0, 9, 0, 10, 0, 11, 0]⟩)).tracks.getD
        2 w0).sample 0 1 = 5 := by
  have h := (demux_channel_slicing ⟨12, 2, 48000,
      [0, 0, 1, 0, 2, 0, 3, 0, 4, 0, 5, 0, 6, 0, 7, 0, 8, 0, 9, 0, 10, 0, 11, 0]⟩
    ⟨by decide, by decide⟩ (by decide) (by decide)).2.2
    (by intro f k hf hk
        have h1 : (⟨12, 2, 48000,
          [0, 0, 1, 0, 2, 0, 3, 0, 4, 0, 5, 0, 6, 0, 7, 0, 8, 0, 9, 0, 10, 0, 11, 0]⟩ :
            Wav).nframes = 1 := rfl
        rw [h1] at hf
        have hf0 : f = 0 := by omega
        subst hf0
        interval_cases k <;> decide)
    2 0 (by decide) (by decide)
  exact ⟨by rw [h.1]; decide, by rw [h.2]; decide⟩

/-- C3: demultiplexing a valid 12-channel container into six stereo files and
multiplexing them back yields a container with identical header metadata
(channel count, bit depth, sample rate, frame count) and identical sample
values at every frame and channel. -/
theorem mux_demux_roundtrip (X : Wav) (hwf : X.wf) (hch : X.nchannels = 12)
    (hsw : X.sampwidth = 2 ∨ X.sampwidth = 3 ∨ X.sampwidth = 4) :
    (exportModel (some X)).ok = true ∧ (exportModel (some X)).tracks.length = 6 ∧
    ∃ Y, importModel ((exportModel (some X)).tracks.map some) = Except.ok Y ∧
      Y.nchannels = X.nchannels ∧ Y.sampwidth = X.sampwidth ∧
      Y.framerate = X.framerate ∧ Y.nframes = X.nframes ∧
      ∀ f c, f < X.nframes → c < 12 → Y.sample f c = X.sample f c := by
  have hE := exportCorrect hwf hch hsw
  have htr : (exportModel (some X)).tracks
      = (List.range 6).map (demuxTrack X (chunks 12 X.decoded)) := by rw [hE]
  have hmem : ∀ w ∈ (List.range 6).map (demuxTrack X (chunks 12 X.decoded)),
      ∃ t, t < 6 ∧ w = demuxTrack X (chunks 12 X.decoded) t := by
    intro w hw
    obtain ⟨t, ht, hte⟩ := List.mem_map.mp hw
    exact ⟨t, by simpa using ht, hte.symm⟩
  have hhead : ((List.range 6).map (demuxTrack X (chunks 12 X.decoded))).headD w0
      = demuxTrack X (chunks 12 X.decoded) 0 := by
    rw [show ((List.range 6).map (demuxTrack X (chunks 12 X.decoded))).headD w0
      = ((List.range 6).map (demuxTrack X (chunks 12 X.decoded))).getD 0 w0 from rfl]
    rw [getD_map _ _ _ 0 0 (by simp), getD_range (by norm_num)]
  have hspec := fun t ht => exportTrack_spec hwf hch hsw t ht
  have hall : ∀ w ∈ (List.range 6).map (demuxTrack X (chunks 12 X.decoded)),
      w.wf ∧ w.nchannels = 2 ∧
      w.sampwidth = (((List.range 6).map (demuxTrack X (chunks 12 X.decoded))).headD
        w0).sampwidth ∧
      w.framerate = (((List.range 6).map (demuxTrack X (chunks 12 X.decoded))).headD
        w0).framerate := by
    intro w hw
    obtain ⟨t, ht, rfl⟩ := hmem w hw
    obtain ⟨_, hsw_t, hfr_t, hwf_t, _, _⟩ := hspec t ht
    obtain ⟨_, hsw_0, hfr_0, _, _, _⟩ := hspec 0 (by norm_num)
    rw [hhead]
    exact ⟨hwf_t, rfl, by rw [hsw_t, hsw_0], by rw [hfr_t, hfr_0]⟩
  have hsw_h : (((List.range 6).map (demuxTrack X (chunks 12 X.decoded))).headD
      w0).sampwidth = X.sampwidth := by
    rw [hhead]
    exact (hspec 0 (by norm_num)).2.1
  have hfr_h : (((List.range 6).map (demuxTrack X (chunks 12 X.decoded))).headD
      w0).framerate = X.framerate := by
    rw [hhead]
    exact (hspec 0 (by norm_num)).2.2.1
  have hIC := importCorrect ((List.range 6).map (demuxTrack X (chunks 12 X.decoded)))
    (by simp) (by simp) hall (by rw [hsw_h]; exact hsw)
  rw [hsw_h, hfr_h] at hIC
  have hMS := muxOutput_spec X.sampwidth X.framerate hsw
    ((List.range 6).map (demuxTrack X (chunks 12 X.decoded))) (by simp)
    (fun w hw => ⟨(hall w hw).1, (hall w hw).2.1, by rw [(hall w hw).2.2.1, hsw_h]⟩)
  obtain ⟨hY12, hYsw, hYfr, _, hYnf, hYsample⟩ := hMS
  refine ⟨by rw [hE], by rw [htr]; simp, ?_⟩
  refine ⟨_, by rw [htr]; exact hIC, by rw [hY12, hch], hYsw, hYfr, ?_, ?_⟩
  · rw [hYnf]
    have hmap : ∀ x ∈ ((List.range 6).map (demuxTrack X (chunks 12 X.decoded))).map
        Wav.nframes, x = X.nframes := by
      intro x hx
      obtain ⟨w, hw, hwe⟩ := List.mem_map.mp hx
      obtain ⟨t, ht, rfl⟩ := hmem w hw
      rw [← hwe]
      exact (hspec t ht).2.2.2.2.1
    apply Nat.le_antisymm
    · exact foldl_max_le _ 0 X.nframes (by omega) (fun x hx => le_of_eq (hmap x hx))
    · apply foldl_max_mem _ 0 X.nframes
      have h0 : demuxTrack X (chunks 12 X.decoded) 0
          ∈ (List.range 6).map (demuxTrack X (chunks 12 X.decoded)) :=
        List.mem_map.mpr ⟨0, by simp, rfl⟩
      exact List.mem_map.mpr ⟨demuxTrack X (chunks 12 X.decoded) 0, h0,
        (hspec 0 (by norm_num)).2.2.2.2.1⟩
  · intro f c hf hc
    rw [hYsample f c hc]
    have hlen6 : ((List.range 6).map (demuxTrack X (chunks 12 X.decoded))).length = 6 := by
      simp
    have hc2 : c / 2 < 6 := by omega
    have hgetc : ((List.range 6).map (demuxTrack X (chunks 12 X.decoded))).getD (c / 2) w0
        = demuxTrack X (chunks 12 X.decoded) (c / 2) := by
      rw [getD_map _ _ _ 0 (c / 2) (by simp [hc2]), getD_range hc2]
    rw [hgetc, if_pos ⟨by omega, by rw [(hspec (c / 2) hc2).2.2.2.2.1]; exact hf⟩]
    rw [(hspec (c / 2) hc2).2.2.2.2.2 f (c % 2) hf (by omega)]
    congr 1
    omega

/-- Witness for C3 at a one-frame 24-bit container holding the extreme
negative sample in channel 0. -/
theorem mux_demux_roundtrip_witness :
    (exportModel (some ⟨12, 3, 48000,
      [0, 0, 128, 0, 0, 0, 0, 0, 0, 0, 0, 0, 0, 0, 0, 0, 0, 0,
       0, 0, 0, 0, 0, 0, 0, 0, 0, 0, 0, 0, 0, 0, 0, 0, 0, 0]⟩)).ok = true ∧
    (exportModel (some ⟨12, 3, 48000,
      [0, 0, 128, 0, 0, 0, 0, 0, 0, 0, 0, 0, 0, 0, 0, 0, 0, 0,
       0, 0, 0, 0, 0, 0, 0, 0, 0, 0, 0, 0, 0, 0, 0, 0, 0, 0]⟩)).tracks.length = 6 ∧
    ∃ Y, importModel ((exportModel (some ⟨12, 3, 48000,
      [0, 0, 128, 0, 0, 0, 0, 0, 0, 0, 0, 0, 0, 0, 0, 0, 0, 0,
       0, 0, 0, 0, 0, 0, 0, 0, 0, 0, 0, 0, 0, 0, 0, 0, 0, 0]⟩)).tracks.map some)
        = Except.ok Y ∧
      Y.nchannels = 12 ∧ Y.sampwidth = 3 ∧ Y.framerate = 48000 ∧ Y.nframes = 1 ∧
      ∀ f c, f < 1 → c < 12 →
        Y.sample f c = (⟨12, 3, 48000,
          [0, 0, 128, 0, 0, 0, 0, 0, 0, 0, 0, 0, 0, 0, 0, 0, 0, 0,
           0, 0, 0, 0, 0, 0, 0, 0, 0, 0, 0, 0, 0, 0, 0, 0, 0, 0]⟩ : Wav).sample f c := by
  obtain ⟨h1, h2, Y, hY, ha, hb, hc, hd, he⟩ := mux_demux_roundtrip ⟨12, 3, 48000,
      [0, 0, 128, 0, 0, 0, 0, 0, 0, 0, 0, 0, 0, 0, 0, 0, 0, 0,
       0, 0, 0, 0, 0, 0, 0, 0, 0, 0, 0, 0, 0, 0, 0, 0, 0, 0]⟩
    ⟨by decide, by decide⟩ (by decide) (by decide)
  exact ⟨h1, h2, Y, hY, ha, hb, hc, hd, fun f c hf hcc => he f c hf hcc⟩

/-- C6 counterexample: a call with 7 paths, none of which exist, does not
fail with TooManyTracks (it fails with NoValidInputs), refuting the claim
that every call with more than 6 paths fails with TooManyTracks. -/
theorem mux_too_many_tracks_cex :
    (List.replicate 7 (none : Option Wav)).length > 6 ∧
    importModel (List.replicate 7 (none : Option Wav))
      = Except.error TpError.noValidInputs ∧
    importModel (List.replicate 7 (none : Option Wav))
      ≠ Except.error TpError.tooManyTracks := by
  refine ⟨by decide, rfl, ?_⟩
  intro h
  have h2 : (Except.error TpError.noValidInputs : Except TpError Wav)
      = Except.error TpError.tooManyTracks := h
  exact absurd (Except.error.inj h2) (by decide)

/-- C6 amended: the track-count limit is applied to the count of existing
(valid) inputs, not the count of given paths: whenever more than 6 of the
given paths exist, Mux fails with TooManyTracks. -/
theorem mux_too_many_tracks_amended (inputs : List (Option Wav))
    (h : 6 < (inputs.filterMap id).length) :
    importModel inputs = Except.error TpError.tooManyTracks := by
  simp only [importModel]
  rw [if_neg (by omega), if_pos h]

/-- Witness for the amended C6 at 7 existing inputs. -/
theorem mux_too_many_tracks_amended_witness :
    importModel (List.replicate 7 (some w0)) = Except.error TpError.tooManyTracks :=
  mux_too_many_tracks_amended (List.replicate 7 (some w0)) (by decide)

/-- C10: the multiplexer checks for absence of valid inputs before the
track-count limit, and the limit counts existing files: a call whose paths
all fail to exist reports NoValidInputs (however many paths were given), and
a call with at most 6 existing files never reports TooManyTracks. -/
theorem mux_filter_before_limit :
    (∀ inputs : List (Option Wav), inputs.filterMap id = [] →
      importModel inputs = Except.error TpError.noValidInputs) ∧
    (∀ inputs : List (Option Wav), (inputs.filterMap id).length ≤ 6 →
      inputs.filterMap id ≠ [] →
      importModel inputs ≠ Except.error TpError.tooManyTracks) := by
  constructor
  · intro inputs h
    simp only [importModel]
    rw [if_pos (by rw [h]; rfl)]
  · intro inputs h6 hne
    have hpos : 0 < (inputs.filterMap id).length := List.length_pos.mpr hne
    simp only [importModel]
    rw [if_neg (by omega), if_neg (by omega)]
    by_cases hch : ((inputs.filterMap id).headD w0).nchannels ≠ 2
    · rw [if_pos hch]
      intro hcon
      exact absurd (Except.error.inj hcon) (by decide)
    · rw [if_neg hch]
      cases hl : loadTracks ((inputs.filterMap id).headD w0).sampwidth
          ((inputs.filterMap id).headD w0).framerate (inputs.filterMap id) with
      | error e =>
        have hnc := (loadTracks_no_count_err ((inputs.filterMap id).headD w0).sampwidth
          ((inputs.filterMap id).headD w0).framerate (inputs.filterMap id)).1
        rw [hl] at hnc
        intro hcon
        exact hnc (by simpa using hcon)
      | ok ts =>
        intro hcon
        exact Except.noConfusion hcon

/-- Witness for C10: nine nonexistent paths give NoValidInputs, and 7 paths
with one existing file do not trip the TooManyTracks check. -/
theorem mux_filter_before_limit_witness :
    importModel (List.replicate 9 (none : Option Wav))
      = Except.error TpError.noValidInputs ∧
    importModel (some w0 :: List.replicate 6 (none : Option Wav))
      ≠ Except.error TpError.tooManyTracks :=
  ⟨mux_filter_before_limit.1 _ (by decide),
   mux_filter_before_limit.2 _ (by decide) (by decide)⟩

/-- C7 counterexample: two valid stereo inputs that differ in sample rate but
also in bit depth fail with SampleWidthMismatch, not SampleRateMismatch; and
with a mono file preceded by stereo files of differing rates the failure is
SampleRateMismatch, not ChannelCountMismatch.  This refutes the claim as
stated (its two conditions do not account for the per-file check order). -/
theorem mux_validation_cex :
    ((⟨2, 2, 44100, []⟩ : Wav).nchannels = 2 ∧ (⟨2, 3, 48000, []⟩ : Wav).nchannels = 2 ∧
      (⟨2, 2, 44100, []⟩ : Wav).framerate ≠ (⟨2, 3, 48000, []⟩ : Wav).framerate ∧
      importModel [some ⟨2, 2, 44100, []⟩, some ⟨2, 3, 48000, []⟩]
        = Except.error TpError.sampleWidthMismatch ∧
      importModel [some ⟨2, 2, 44100, []⟩, some ⟨2, 3, 48000, []⟩]
        ≠ Except.error TpError.sampleRateMismatch) ∧
    ((⟨1, 2, 44100, []⟩ : Wav).nchannels ≠ 2 ∧
      importModel [some ⟨2, 2, 44100, []⟩, some ⟨2, 2, 48000, []⟩, some ⟨1, 2, 44100, []⟩]
        = Except.error TpError.sampleRateMismatch ∧
      importModel [some ⟨2, 2, 44100, []⟩, some ⟨2, 2, 48000, []⟩, some ⟨1, 2, 44100, []⟩]
        ≠ Except.error TpError.channelCountMismatch) := by
  refine ⟨⟨rfl, rfl, by decide, rfl, ?_⟩, ⟨by decide, rfl, ?_⟩⟩
  · intro h
    have h2 : (Except.error TpError.sampleWidthMismatch : Except TpError Wav)
        = Except.error TpError.sampleRateMismatch := h
    exact absurd (Except.error.inj h2) (by decide)
  · intro h
    have h2 : (Except.error TpError.sampleRateMismatch : Except TpError Wav)
        = Except.error TpError.channelCountMismatch := h
    exact absurd (Except.error.inj h2) (by decide)

/-- C7 amended: with the per-file check order accounted for — if every valid
input is stereo and they all share the reference bit depth and some input's
sample rate differs from the reference, Mux fails with SampleRateMismatch;
if all valid inputs share the reference bit depth and sample rate and some
valid input is not 2-channel, Mux fails with ChannelCountMismatch.  In both
cases the result is an error, so no output file is created (the model only
produces an output value on success, mirroring that the source opens the
output file only after the validation loop). -/
theorem mux_validation_amended (inputs : List (Option Wav))
    (hne : inputs.filterMap id ≠ []) (h6 : (inputs.filterMap id).length ≤ 6)
    (hwfs : ∀ w ∈ inputs.filterMap id, w.wf)
    (hsw3 : ((inputs.filterMap id).headD w0).sampwidth = 2 ∨
      ((inputs.filterMap id).headD w0).sampwidth = 3 ∨
      ((inputs.filterMap id).headD w0).sampwidth = 4) :
    ((∀ w ∈ inputs.filterMap id, w.nchannels = 2 ∧
        w.sampwidth = ((inputs.filterMap id).headD w0).sampwidth) →
      (∃ w ∈ inputs.filterMap id,
        w.framerate ≠ ((inputs.filterMap id).headD w0).framerate) →
      importModel inputs = Except.error TpError.sampleRateMismatch) ∧
    ((∀ w ∈ inputs.filterMap id,
        w.sampwidth = ((inputs.filterMap id).headD w0).sampwidth ∧
        w.framerate = ((inputs.filterMap id).headD w0).framerate) →
      (∃ w ∈ inputs.filterMap id, w.nchannels ≠ 2) →
      importModel inputs = Except.error TpError.channelCountMismatch) := by
  have hpos : 0 < (inputs.filterMap id).length := List.length_pos.mpr hne
  have hhead : (inputs.filterMap id).headD w0 ∈ inputs.filterMap id := by
    cases hfm : inputs.filterMap id with
    | nil => exact absurd hfm hne
    | cons a l => simp
  constructor
  · intro hformat hex
    simp only [importModel]
    rw [if_neg (by omega), if_neg (by omega),
      if_neg (by have := (hformat _ hhead).1; omega)]
    rw [loadTracks_rate_err _ _ hsw3 (inputs.filterMap id)
      (fun w hw => ⟨hwfs w hw, (hformat w hw).1, (hformat w hw).2⟩) hex]
  · intro hformat hex
    simp only [importModel]
    rw [if_neg (by omega), if_neg (by omega)]
    by_cases hch : ((inputs.filterMap id).headD w0).nchannels ≠ 2
    · rw [if_pos hch]
    · rw [if_neg hch]
      rw [loadTracks_chan_err _ _ hsw3 (inputs.filterMap id)
        (fun w hw => ⟨hwfs w hw, (hformat w hw).1, (hformat w hw).2⟩) hex]

/-- Witness for the amended C7 at concrete pairs of empty stereo files. -/
theorem mux_validation_amended_witness :
    importModel [some ⟨2, 2, 44100, []⟩, some ⟨2, 2, 48000, []⟩]
      = Except.error TpError.sampleRateMismatch ∧
    importModel [some ⟨2, 2, 44100, []⟩, some ⟨1, 2, 44100, []⟩]
      = Except.error TpError.channelCountMismatch := by
  constructor
  · exact (mux_validation_amended [some ⟨2, 2, 44100, []⟩, some ⟨2, 2, 48000, []⟩]
      (by decide) (by decide)
      (by intro w hw; fin_cases hw <;> exact ⟨by decide, by decide⟩)
      (by decide)).1
      (by intro w hw; fin_cases hw <;> exact ⟨by decide, by decide⟩)
      ⟨⟨2, 2, 48000, []⟩, by decide, by decide⟩
  · exact (mux_validation_amended [some ⟨2, 2, 44100, []⟩, some ⟨1, 2, 44100, []⟩]
      (by decide) (by decide)
      (by intro w hw; fin_cases hw <;> exact ⟨by decide, by decide⟩)
      (by decide)).2
      (by intro w hw; fin_cases hw <;> exact ⟨by decide, by decide⟩)
      ⟨⟨1, 2, 44100, []⟩, by decide, by decide⟩

/-- C4: muxing a 100-frame and a 50-frame stereo file of identical format
yields a 100-frame 12-channel output whose second channel pair equals the
second input for frames 0-49 and is zero for frames 50-99, with channel
pairs 2-5 all zero; in general the output length is the maximum frame count
over the valid inputs, and every row beyond an individual track's length is
zero in that track's channel pair. -/
theorem mux_silence_padding (A B : Wav)
    (hA : A.wf) (hA2 : A.nchannels = 2) (hAn : A.nframes = 100)
    (hB : B.wf) (hB2 : B.nchannels = 2) (hBn : B.nframes = 50)
    (hsw : A.sampwidth = B.sampwidth)
    (hsw3 : A.sampwidth = 2 ∨ A.sampwidth = 3 ∨ A.sampwidth = 4)
    (hr : A.framerate = B.framerate) :
    (∃ Y, importModel [some A, some B] = Except.ok Y ∧
      Y.nchannels = 12 ∧ Y.nframes = 100 ∧
      (∀ f, f < 50 → Y.sample f 2 = B.sample f 0 ∧ Y.sample f 3 = B.sample f 1) ∧
      (∀ f, 50 ≤ f → f < 100 → Y.sample f 2 = 0 ∧ Y.sample f 3 = 0) ∧
      (∀ f c, f < 100 → 4 ≤ c → c < 12 → Y.sample f c = 0)) ∧
    (∀ (ws : List Wav) (Y : Wav), ws ≠ [] → ws.length ≤ 6 →
      (∀ w ∈ ws, w.wf ∧ w.nchannels = 2 ∧ w.sampwidth = (ws.headD w0).sampwidth ∧
        w.framerate = (ws.headD w0).framerate) →
      ((ws.headD w0).sampwidth = 2 ∨ (ws.headD w0).sampwidth = 3 ∨
        (ws.headD w0).sampwidth = 4) →
      importModel (ws.map some) = Except.ok Y →
      Y.nframes = (ws.map Wav.nframes).foldl max 0 ∧
      ∀ i f j, i < ws.length → (ws.getD i w0).nframes ≤ f → f < Y.nframes → j < 2 →
        Y.sample f (2 * i + j) = 0) := by
  constructor
  · have hall : ∀ w ∈ [A, B], w.wf ∧ w.nchannels = 2 ∧
        w.sampwidth = ([A, B].headD w0).sampwidth ∧
        w.framerate = ([A, B].headD w0).framerate := by
      intro w hw
      fin_cases hw
      · exact ⟨hA, hA2, rfl, rfl⟩
      · exact ⟨hB, hB2, hsw.symm, hr.symm⟩
    have hIC := importCorrect [A, B] (by simp) (by simp) hall hsw3
    simp only [List.headD_cons] at hIC
    have hMS := muxOutput_spec A.sampwidth A.framerate hsw3 [A, B] (by simp)
      (fun w hw => ⟨(hall w hw).1, (hall w hw).2.1, (hall w hw).2.2.1⟩)
    obtain ⟨hY12, _, _, _, hYnf, hYsample⟩ := hMS
    refine ⟨_, hIC, hY12, ?_, ?_, ?_, ?_⟩
    · rw [hYnf, show [A, B].map Wav.nframes = [A.nframes, B.nframes] from rfl, hAn, hBn]
      rfl
    · intro f hf
      constructor
      · rw [hYsample f 2 (by norm_num),
          if_pos ⟨by norm_num, by rw [show [A, B].getD (2 / 2) w0 = B from rfl, hBn]; omega⟩]
        rfl
      · rw [hYsample f 3 (by norm_num),
          if_pos ⟨by norm_num, by rw [show [A, B].getD (3 / 2) w0 = B from rfl, hBn]; omega⟩]
        rfl
    · intro f hf50 hf100
      constructor
      · rw [hYsample f 2 (by norm_num),
          if_neg (fun hcon => by
            rw [show [A, B].getD (2 / 2) w0 = B from rfl, hBn] at hcon
            omega)]
      · rw [hYsample f 3 (by norm_num),
          if_neg (fun hcon => by
            rw [show [A, B].getD (3 / 2) w0 = B from rfl, hBn] at hcon
            omega)]
    · intro f c hf hc4 hc12
      rw [hYsample f c hc12,
        if_neg (fun hcon => by
          have h2 : c / 2 < 2 := by simpa using hcon.1
          omega)]
  · intro ws Y hne hlen hall hsw3g heq
    have hIC := importCorrect ws hne hlen hall hsw3g
    have hYeq : Y = muxOutput (ws.headD w0).sampwidth (ws.headD w0).framerate
        (ws.map fun w => chunks 2 w.decoded) := Except.ok.inj (heq.symm.trans hIC)
    subst hYeq
    have hMS := muxOutput_spec (ws.headD w0).sampwidth (ws.headD w0).framerate hsw3g ws hlen
      (fun w hw => ⟨(hall w hw).1, (hall w hw).2.1, (hall w hw).2.2.1⟩)
    refine ⟨hMS.2.2.2.2.1, ?_⟩
    intro i f j hi hfge _hflt hj
    rw [hMS.2.2.2.2.2 f (2 * i + j) (by omega),
      show (2 * i + j) / 2 = i from by omega,
      if_neg (fun hcon => absurd hcon.2 (by omega))]

/-- Witness for C4 at concrete all-zero 16-bit inputs of 100 and 50 frames. -/
theorem mux_silence_padding_witness :
    ∃ Y, importModel [some ⟨2, 2, 44100, List.replicate 400 0⟩,
        some ⟨2, 2, 44100, List.replicate 200 0⟩] = Except.ok Y ∧
      Y.nchannels = 12 ∧ Y.nframes = 100 ∧
      (∀ f, f < 50 → Y.sample f 2 = (⟨2, 2, 44100, List.replicate 200 0⟩ : Wav).sample f 0 ∧
        Y.sample f 3 = (⟨2, 2, 44100, List.replicate 200 0⟩ : Wav).sample f 1) ∧
      (∀ f, 50 ≤ f → f < 100 → Y.sample f 2 = 0 ∧ Y.sample f 3 = 0) ∧
      (∀ f c, f < 100 → 4 ≤ c → c < 12 → Y.sample f c = 0) :=
  (mux_silence_padding ⟨2, 2, 44100, List.replicate 400 0⟩ ⟨2, 2, 44100, List.replicate 200 0⟩
    ⟨by decide, by decide⟩ (by decide) (by decide)
    ⟨by decide, by decide⟩ (by decide) (by decide)
    (by decide) (by decide) (by decide)).1

end Tp7
